import Mathlib

/-!
Shallow embedding of the address-translation, dependency-graph and
line-program-rewrite cores of the `wtmaps-utils` repository
(crates `wdwarf` and `wdwarf-cp`), together with theorems settling the
frozen claims about them.

Conventions used throughout:
* `u64`/`usize` values are modelled as `Nat` (no claim depends on wrap-around
  arithmetic; where Rust subtraction appears its numeric value is irrelevant
  to every claim, only its constructor shape matters).
* Rust `panic!`/`unwrap` is modelled by `Option`-valued functions: `none`
  means the corresponding Rust code panics.
* `BTreeMap` is modelled by an association list sorted strictly by key;
  `HashSet` by `Finset`; iteration orders of hash containers are fixed to
  insertion order (the settled claims are about the resulting sets, which
  are iteration-order independent).
-/

/-- Rust `gimli::write::Address`: either a constant address or a symbol+addend. -/
inductive Address : Type
  | constant (v : Nat)
  | symbol (sym : Nat) (addend : Int)
  deriving DecidableEq, Repr

/-- Rust `Address::Constant` recognizer. -/
def Address.isConstant : Address → Bool
  | .constant _ => true
  | .symbol _ _ => false

/-- Rust `compare_addresses` (wdwarf/src/address_translator.rs:367-382); `none`
models the `panic!("incompatible addresses")` branch. -/
def compareAddresses : Address → Address → Option Ordering
  | .constant v1, .constant v2 => some (compare v1 v2)
  | .symbol s1 a1, .symbol s2 a2 =>
      if s1 = s2 then some (compare a1 a2) else none
  | _, _ => none

/-- Rust `calc_address_offset` (wdwarf/src/address_translator.rs:350-365); `none`
models the `panic!("incompatible addresses")` branch.  The numeric value of
the subtraction is irrelevant to every claim; `Nat` truncated subtraction
stands in for `u64` subtraction. -/
def calcAddressOffset : Address → Address → Option Nat
  | .constant v1, .constant v2 => some (v2 - v1)
  | .symbol s1 a1, .symbol s2 a2 =>
      if s1 = s2 then some (a2 - a1).toNat else none
  | _, _ => none

/-- A `Range` of the wdwarf `AddressMap`: keypoints are
`(OriginalAddress, TargetAddress)` pairs, `last` is a `TargetAddress`
(wdwarf/src/address_translator.rs:23-27). -/
structure MRange : Type where
  keypoints : List (Nat × Nat)
  last : Nat
  deriving DecidableEq, Repr

/-- Rust `AddressMap` (wdwarf/src/address_translator.rs:29-32). -/
structure AddressMap : Type where
  ranges : List MRange
  deriving DecidableEq, Repr

/-- Rust `AddressMap::new` (wdwarf/src/address_translator.rs:35-37). -/
def AddressMap.new : AddressMap := ⟨[]⟩

/-- Rust `AddressMap::start_range` (wdwarf/src/address_translator.rs:39-44). -/
def AddressMap.startRange (m : AddressMap) (key addr : Nat) : AddressMap :=
  ⟨m.ranges ++ [⟨[(addr, key)], key⟩]⟩

/-- Rust `AddressMap::insert` (wdwarf/src/address_translator.rs:46-59).
`key` is the target, `addr` the original address.  `none` models the panic of
`keypoints.last().unwrap()` on a range with no keypoints; the
`ranges.last_mut().unwrap()` is guarded by the emptiness test, as in the
source. -/
def AddressMap.insert? (m : AddressMap) (key addr : Nat) : Option AddressMap :=
  match m.ranges.getLast? with
  | none => some (m.startRange key addr)
  | some lastRange =>
      (lastRange.keypoints.getLast?).map fun kp =>
        if kp.1 ≤ addr then
          ⟨m.ranges.dropLast ++ [⟨lastRange.keypoints ++ [(addr, key)], key⟩]⟩
        else
          ⟨m.ranges.dropLast ++ [⟨lastRange.keypoints, key⟩, ⟨[(addr, key)], key⟩]⟩

/-- Streaming a whole list of `insert(target, original)` calls, starting from
`AddressMap::new`; `none` if any call panics. -/
def AddressMap.insertAll? (ops : List (Nat × Nat)) : Option AddressMap :=
  ops.foldlM (fun m op => m.insert? op.1 op.2) AddressMap.new

/-- Every range of an address map has at least one keypoint. -/
def AddressMap.rangesNonempty (m : AddressMap) : Prop :=
  ∀ r ∈ m.ranges, r.keypoints ≠ []

/-! ### BTreeMap model and the sweep-line index construction -/

/-- Rust `BTreeMap<u64, α>`, modelled as an association list sorted strictly
ascending by key. -/
abbrev BMap (α : Type) := List (Nat × α)

/-- Rust `BTreeMap::contains_key`. -/
def bContains (k : Nat) (m : BMap α) : Bool :=
  m.any (fun e => e.1 = k)

/-- Rust `BTreeMap::insert`, keeping keys sorted (replaces an existing binding). -/
def bInsert (k : Nat) (v : α) : BMap α → BMap α
  | [] => [(k, v)]
  | e :: rest =>
      if k < e.1 then (k, v) :: e :: rest
      else if k = e.1 then (k, v) :: rest
      else e :: bInsert k v rest

/-- Rust `map.range(..k).last()`: the greatest binding with key < `k`. -/
def bPredLT (k : Nat) (m : BMap α) : Option (Nat × α) :=
  (m.filter (fun e => e.1 < k)).getLast?

/-- Rust `map.range(..=k).last()`: the greatest binding with key ≤ `k`. -/
def bFindLE (k : Nat) (m : BMap α) : Option (Nat × α) :=
  (m.filter (fun e => e.1 ≤ k)).getLast?

/-- Rust `map.range_mut(lo..=hi)`, mutating every value in the key window by `f`. -/
def bMapRange (lo hi : Nat) (f : α → α) (m : BMap α) : BMap α :=
  m.map (fun e => if lo ≤ e.1 ∧ e.1 ≤ hi then (e.1, f e.2) else e)

/-- Stable insertion of `x` into a sorted list: `x` goes before the first
element `y` for which `lt y x` fails. -/
def insertBy (lt : α → α → Bool) (x : α) : List α → List α
  | [] => [x]
  | y :: ys => if lt y x then y :: insertBy lt x ys else x :: y :: ys

/-- Stable insertion sort; extensionally equal to Rust's stable
`sort`/`sort_by` for a total preorder `lt` (strict "before" test). -/
def sortBy (lt : α → α → Bool) : List α → List α
  | [] => []
  | x :: xs => insertBy lt x (sortBy lt xs)

/-- The drain loop of `generate_index` (wdwarf/src/address_translator.rs:185-196):
repeatedly remove the smallest-keyed binding of `active` while its key is
`< first`, publishing it into `result`. -/
def drainLT (first : Nat) : BMap (List Nat) → BMap (List Nat) →
    BMap (List Nat) × BMap (List Nat)
  | [], result => ([], result)
  | e :: rest, result =>
      if e.1 < first then drainLT first rest (bInsert e.1 e.2 result)
      else (e :: rest, result)

/-- One seeding block of `generate_index`
(wdwarf/src/address_translator.rs:197-214): if `active` has no binding at
`checkKey`, insert — at `insKey`; the source inserts at `first_addr` in BOTH
blocks, including the `last_addr` one — a clone of the value of the greatest
binding below `checkKey`, or an empty list. -/
def seedActive (checkKey insKey : Nat) (active : BMap (List Nat)) : BMap (List Nat) :=
  if bContains checkKey active then active
  else
    let ranges := match bPredLT checkKey active with
      | some e => e.2
      | none => []
    bInsert insKey ranges active

/-- The body of the sweep loop of `generate_index` for one `sorted_map` entry
(`first_addr`, range with last original `lastAddr`, range index `index`). -/
def processRange (st : BMap (List Nat) × BMap (List Nat))
    (firstAddr lastAddr index : Nat) : BMap (List Nat) × BMap (List Nat) :=
  let (active, result) := drainLT firstAddr st.1 st.2
  let active := seedActive firstAddr firstAddr active
  let active := seedActive lastAddr firstAddr active
  let active := bMapRange firstAddr lastAddr (fun l => l ++ [index]) active
  (active, result)

/-- The `sorted_map` of `generate_index`
(wdwarf/src/address_translator.rs:173-178): a `BTreeMap` from each range's
first keypoint original address to the range and its index; on equal first
addresses a later range overwrites an earlier one, as `BTreeMap::insert` does.
`none` models the `keypoints.first().unwrap()` panic. -/
def buildSortedMap? (ranges : List MRange) : Option (BMap (MRange × Nat)) :=
  ranges.enum.foldlM
    (fun sm ie => (ie.2.keypoints.head?).map (fun kp => bInsert kp.1 (ie.2, ie.1) sm))
    []

/-- Rust `AddressMapIndexed::generate_index`
(wdwarf/src/address_translator.rs:172-223).  `none` models the
`keypoints.first().unwrap()` / `keypoints.last().unwrap()` panics. -/
def generateIndex? (map : AddressMap) : Option (BMap (List Nat)) := do
  let sortedMap ← buildSortedMap? map.ranges
  let st ← sortedMap.foldlM
    (fun st e =>
      (e.2.1.keypoints.getLast?).map (fun lkp => processRange st e.1 lkp.1 e.2.2))
    (([] : BMap (List Nat)), ([] : BMap (List Nat)))
  return st.1.foldl (fun res e => bInsert e.1 e.2 res) st.2

/-! ### Point, range and function-range lookups -/

/-- The Rust `binary_search_by(|a| a.0.cmp(&addr))` on a keypoint list,
followed by the `Ok`/`Err` resolution shared by the lookup iterators
(wdwarf/src/address_translator.rs:102-112): an exact hit yields that
keypoint's target, otherwise the keypoint at the insertion position, or
`last` past the end.  On a list sorted by original address — the only lists
that occur — the insertion position is the number of keypoints with original
`< addr`; for an exact hit Rust may return any matching index, this model
resolves to the first. -/
def resolveKeypoint (kps : List (Nat × Nat)) (lastTarget addr : Nat) : Nat :=
  match kps.find? (fun kp => kp.1 = addr) with
  | some kp => kp.2
  | none =>
      let i := kps.countP (fun kp => kp.1 < addr)
      match kps.get? i with
      | some kp => kp.2
      | none => lastTarget

/-- Rust `AddressMapIndexed::lookup_address`
(wdwarf/src/address_translator.rs:314-324) with the resulting
`LookupAddressIterator` (lines 87-119) collected into a list: one translated
target per range index stored at the greatest index key ≤ `addr`. -/
def lookupAddress (map : AddressMap) (index : BMap (List Nat)) (addr : Nat) :
    List Nat :=
  match bFindLE addr index with
  | none => []
  | some e =>
      e.2.map (fun ri =>
        let r := map.ranges.getD ri ⟨[], 0⟩
        resolveKeypoint r.keypoints r.last addr)

/-- Rust `AddressMapIndexed` (wdwarf/src/address_translator.rs:71-76): the map, its
index, and the sorted function-range table (half-open target ranges stored as
`(start, end)` pairs). -/
structure AddressMapIndexed : Type where
  map : AddressMap
  index : BMap (List Nat)
  functionRanges : List (Nat × Nat)
  deriving DecidableEq, Repr

/-- Rust `AddressMapIndexed::from` (wdwarf/src/address_translator.rs:225-238):
sort the `(begin, end)` pairs (lexicographically, as Rust orders tuples) and
build the index; `none` models the `generate_index` panics. -/
def AddressMapIndexed.from? (map : AddressMap) (functionRanges : List (Nat × Nat)) :
    Option AddressMapIndexed :=
  (generateIndex? map).map fun idx =>
    ⟨map, idx,
      sortBy (fun a b => decide (a.1 < b.1 ∨ (a.1 = b.1 ∧ a.2 < b.2))) functionRanges⟩

/-- Rust `AddressMapIndexed::lookup_function_range_by_target_address`
(wdwarf/src/address_translator.rs:240-261): binary search of the sorted
function-range table by range start; an exact hit returns that range,
otherwise the previous range if it contains `addr`. -/
def lookupFRByTargetAddress (frs : List (Nat × Nat)) (addr : Nat) :
    Option (Nat × Nat) :=
  match frs.find? (fun fr => fr.1 = addr) with
  | some fr => some fr
  | none =>
      match frs.countP (fun fr => fr.1 < addr) with
      | 0 => none
      | i + 1 =>
          match frs.get? i with
          | some fr => if fr.1 ≤ addr ∧ addr < fr.2 then some fr else none
          | none => none

/-- The inner loop body of `lookup_function_range`
(wdwarf/src/address_translator.rs:272-308) for one range: `some fr` when the
source `return`s, `none` when it falls through to the next range index.  The
`assert!(i < range.keypoints.len())` can only fail on a range with no
keypoints; that (unreachable on maps built by `insert`) case is modelled as a
fall-through. -/
def lookupFRinRange (frs : List (Nat × Nat)) (r : MRange) (addr : Nat) :
    Option (Nat × Nat) :=
  match r.keypoints.find? (fun kp => kp.1 = addr) with
  | some kp => lookupFRByTargetAddress frs kp.2
  | none =>
      match r.keypoints.countP (fun kp => kp.1 < addr) with
      | 0 =>
          match r.keypoints.get? 0 with
          | some kp => lookupFRByTargetAddress frs kp.2
          | none => none
      | i + 1 =>
          match lookupFRByTargetAddress frs ((r.keypoints.getD i (0, 0)).2) with
          | none => none
          | some leftRange =>
              if i + 1 ≥ r.keypoints.length then some leftRange
              else
                match lookupFRByTargetAddress frs ((r.keypoints.getD (i + 1) (0, 0)).2) with
                | some rightRange => some rightRange
                | none => none

/-- One iteration of the outer `for addr in addrs` loop of
`lookup_function_range` (wdwarf/src/address_translator.rs:265-310): outer
`none` models the `break` when the index lookup fails, inner value is the
first `return` produced while scanning the stored range indices. -/
def lookupFRforAddr (t : AddressMapIndexed) (addr : Nat) :
    Option (Option (Nat × Nat)) :=
  match bFindLE addr t.index with
  | none => none
  | some e =>
      some (e.2.findSome? (fun ri =>
        lookupFRinRange t.functionRanges (t.map.ranges.getD ri ⟨[], 0⟩) addr))

/-- Rust `AddressMapIndexed::lookup_function_range`
(wdwarf/src/address_translator.rs:263-312). -/
def lookupFunctionRange (t : AddressMapIndexed) : List Nat → Option (Nat × Nat)
  | [] => none
  | addr :: rest =>
      match lookupFRforAddr t addr with
      | none => none
      | some (some fr) => some fr
      | some none => lookupFunctionRange t rest

/-- Rust `AddressMapIndexed::lookup_range`
(wdwarf/src/address_translator.rs:326-347) with its `LookupRangeIterator`
(lines 121-169) collected into a list: the `BTreeSet` of range indices found
between the greatest index key ≤ `start` and `endAddr` is traversed in
ascending order; both endpoints are translated with the shared binary-search
policy and degenerate intervals are skipped. -/
def lookupRange (t : AddressMapIndexed) (start endAddr : Nat) : List (Nat × Nat) :=
  let lower := (bFindLE start t.index).map (fun e => e.1)
  let entries := t.index.filter (fun en =>
    (match lower with
     | some l => decide (l ≤ en.1)
     | none => true) && decide (en.1 ≤ endAddr))
  let idxs := sortBy (fun a b => decide (a < b)) (entries.flatMap (fun e => e.2)).dedup
  (idxs.map (fun ri =>
    let r := t.map.ranges.getD ri ⟨[], 0⟩
    (resolveKeypoint r.keypoints r.last start,
     resolveKeypoint r.keypoints r.last endAddr))).filter (fun p => p.1 < p.2)

/-! ### The wdwarf address translators -/

/-- Rust `to_addr_len` (wdwarf/src/address_translator.rs:65-69). -/
def toAddrLen (fr : Nat × Nat) : Address × Nat :=
  (.constant fr.1, fr.2 - fr.1)

/-- Rust `from_target_address` (wdwarf/src/address_translator.rs:458-460). -/
def fromTargetAddress (a : Nat) : Address := .constant a

/-- Rust `TranformAddressTranslator::translate_address`
(wdwarf/src/address_translator.rs:473-481). -/
def tfTranslateAddress (t : AddressMapIndexed) (addr : Nat) : List Address :=
  if addr = 0 then []
  else (lookupAddress t.map t.index addr).map fromTargetAddress

/-- Rust `TranformAddressTranslator::translate_base_address`
(wdwarf/src/address_translator.rs:463-471): `next()` of the lookup iterator. -/
def tfTranslateBaseAddress (t : AddressMapIndexed) (addr : Nat) : Option Address :=
  if addr = 0 then none
  else ((lookupAddress t.map t.index addr).head?).map fromTargetAddress

/-- Merging loop of `TranformAddressTranslator::translate_range`
(wdwarf/src/address_translator.rs:495-505). -/
def mergeRanges (current : Nat × Nat) : List (Nat × Nat) → List (Nat × Nat)
  | [] => [current]
  | nxt :: rest =>
      if current.2 = nxt.1 then mergeRanges (current.1, nxt.2) rest
      else current :: mergeRanges nxt rest

/-- Rust `TranformAddressTranslator::translate_range`
(wdwarf/src/address_translator.rs:483-507). -/
def tfTranslateRange (t : AddressMapIndexed) (start len : Nat) : List (Address × Nat) :=
  if start = 0 then []
  else
    match lookupRange t start (start + len) with
    | [] => []
    | c :: rest => (mergeRanges c rest).map toAddrLen

/-- Rust `TranformAddressTranslator::translate_function_range`
(wdwarf/src/address_translator.rs:509-518). -/
def tfTranslateFunctionRange (t : AddressMapIndexed) (start len : Nat) :
    Option (Address × Nat) :=
  let addrs := if len = 0 then [start] else [start, start + len - 1]
  (lookupFunctionRange t addrs).map toAddrLen

/-- Rust `IdentityAddressTranslator::translate_address`
(wdwarf/src/address_translator.rs:425-430); `strip` is the "filter-zero"
flag. -/
def idTranslateAddress (strip : Bool) (addr : Nat) : List Address :=
  if addr = 0 ∧ strip then [] else [.constant addr]

/-- Rust `IdentityAddressTranslator::translate_range`
(wdwarf/src/address_translator.rs:432-437). -/
def idTranslateRange (strip : Bool) (start len : Nat) : List (Address × Nat) :=
  if start = 0 ∧ strip then [] else [(.constant start, len)]

/-- Rust `IdentityAddressTranslator::translate_function_range`
(wdwarf/src/address_translator.rs:439-444). -/
def idTranslateFunctionRange (strip : Bool) (start len : Nat) :
    Option (Address × Nat) :=
  if start = 0 ∧ strip then none else some (.constant start, len)

/-- The fold inside `Iterator::min_by`: keep the accumulator unless it
compares `Greater`; `none` models a comparator panic. -/
def minByGo (acc : Address) : List Address → Option Address
  | [] => some acc
  | b :: rest =>
      match compareAddresses acc b with
      | none => none
      | some o => minByGo (if o = Ordering.gt then b else acc) rest

/-- Rust `addresses.into_iter().min_by(compare_addresses)`: outer `none` models a
panic inside the comparator; the inner value is Rust's `min_by` result
(`none` on an empty input, otherwise the first minimal element). -/
def minByAddr : List Address → Option (Option Address)
  | [] => some none
  | a :: rest => (minByGo a rest).map some

/-- The trait-default `AddressTranslator::translate_base_address`
(wdwarf/src/address_translator.rs:391-394), for a given `translate_address`;
this is the implementation `IdentityAddressTranslator` inherits. -/
def defaultTranslateBase (ta : Nat → List Address) (addr : Nat) :
    Option (Option Address) :=
  minByAddr (ta addr)

/-! ### The wdwarf-cp crate's address translator (same shapes over `usize`) -/

namespace CP

/-- Rust `AddressMap::insert` of the wdwarf-cp crate
(wdwarf-cp/src/address_translator.rs:28-41).  Unlike the wdwarf version, the
append condition compares the open range's `last` TARGET value with the new
ORIGINAL address, and no unwrap can panic. -/
def insert (m : AddressMap) (key addr : Nat) : AddressMap :=
  match m.ranges.getLast? with
  | none => m.startRange key addr
  | some lastRange =>
      if lastRange.last ≤ addr then
        ⟨m.ranges.dropLast ++ [⟨lastRange.keypoints ++ [(addr, key)], key⟩]⟩
      else
        ⟨m.ranges.dropLast ++ [⟨lastRange.keypoints, key⟩, ⟨[(addr, key)], key⟩]⟩

/-- Streaming `insert` calls of the wdwarf-cp crate from `AddressMap::new`. -/
def insertAll (ops : List (Nat × Nat)) : AddressMap :=
  ops.foldl (fun m op => insert m op.1 op.2) AddressMap.new

/-- Rust `AddressMapIndexed` of the wdwarf-cp crate
(wdwarf-cp/src/address_translator.rs:46-50). -/
structure Indexed : Type where
  map : AddressMap
  index : BMap (List Nat)
  deriving DecidableEq, Repr

/-- Rust `AddressMapIndexed::lookup_address` of the wdwarf-cp crate
(wdwarf-cp/src/address_translator.rs:109-132).  Outer `none` models the
out-of-bounds panic of `range.keypoints[i + 1]`; the inner value is the
returned `Option<u64>`.  Only the first stored range index is consulted
("FIXME iterate on all possible variants"). -/
def lookupAddress? (map : AddressMap) (index : BMap (List Nat)) (addr : Nat) :
    Option (Option Nat) :=
  match bFindLE addr index with
  | none => some none
  | some e =>
      match e.2 with
      | [] => some none
      | ri :: _ =>
          let r := map.ranges.getD ri ⟨[], 0⟩
          match r.keypoints.find? (fun kp => kp.1 = addr) with
          | some kp => some (some kp.2)
          | none =>
              let i := r.keypoints.countP (fun kp => kp.1 < addr)
              if i < r.keypoints.length then
                (r.keypoints.get? (i + 1)).map (fun kp => some kp.2)
              else some (some r.last)

/-- Rust `TranformAddressTranslator::translate_address` of the wdwarf-cp crate
(wdwarf-cp/src/address_translator.rs:213-222); outer `none` models the
lookup panic. -/
def tfTranslateAddress? (t : Indexed) (addr : Nat) : Option (List Address) :=
  if addr = 0 then some []
  else
    (lookupAddress? t.map t.index addr).map (fun r =>
      match r with
      | some a => [.constant a]
      | none => [])

/-- The trait-default `translate_base_address` of the wdwarf-cp crate
(wdwarf-cp/src/address_translator.rs:157-164): the FIRST element of
`translate_address`, or `None` when it is empty. -/
def defaultTranslateBase (addresses : List Address) : Option Address :=
  addresses.head?

/-- Rust `translate_base_address` of the wdwarf-cp `TranformAddressTranslator`
(the inherited trait default applied to its `translate_address`). -/
def tfTranslateBase? (t : Indexed) (addr : Nat) : Option (Option Address) :=
  (tfTranslateAddress? t addr).map defaultTranslateBase

/-- Rust `IdentityAddressTranslator::translate_address` of the wdwarf-cp crate
(wdwarf-cp/src/address_translator.rs:186-191). -/
def idTranslateAddress (strip : Bool) (addr : Nat) : List Address :=
  if addr = 0 ∧ strip then [] else [.constant addr]

/-- Rust `translate_base_address` of the wdwarf-cp `IdentityAddressTranslator`
(the inherited trait default). -/
def idTranslateBase (strip : Bool) (addr : Nat) : Option Address :=
  defaultTranslateBase (idTranslateAddress strip addr)

end CP

/-! ### The dependency graph (wdwarf-cp/src/gc.rs) -/

namespace GC

/-- A mutation of a `Dependencies` value: one `add_edge` or `add_root` call. -/
inductive Op : Type
  | addEdge (a b : Nat)
  | addRoot (r : Nat)
  deriving DecidableEq, Repr

/-- Rust `Dependencies` (wdwarf-cp/src/gc.rs:9-13).  The `HashMap` of edge sets and
the `HashSet` of roots are modelled as lists without duplicates, in insertion
order (hash iteration order is arbitrary in Rust; every claim settled here is
about the resulting sets, which are iteration-order independent). -/
structure Dependencies : Type where
  edges : List (Nat × List Nat)
  roots : List Nat
  deriving DecidableEq, Repr

/-- Rust `Dependencies::new` (wdwarf-cp/src/gc.rs:16-21). -/
def Dependencies.new : Dependencies := ⟨[], []⟩

/-- The entry update of `add_edge` (wdwarf-cp/src/gc.rs:23-35): occupied entry
→ insert `b` into its set; vacant entry → fresh singleton set. -/
def edgesInsert (a b : Nat) : List (Nat × List Nat) → List (Nat × List Nat)
  | [] => [(a, [b])]
  | e :: rest =>
      if e.1 = a then (e.1, if b ∈ e.2 then e.2 else e.2 ++ [b]) :: rest
      else e :: edgesInsert a b rest

/-- Rust `Dependencies::add_edge` (wdwarf-cp/src/gc.rs:23-35). -/
def Dependencies.addEdge (d : Dependencies) (a b : Nat) : Dependencies :=
  ⟨edgesInsert a b d.edges, d.roots⟩

/-- Rust `Dependencies::add_root` (wdwarf-cp/src/gc.rs:37-39). -/
def Dependencies.addRoot (d : Dependencies) (r : Nat) : Dependencies :=
  ⟨d.edges, if r ∈ d.roots then d.roots else d.roots ++ [r]⟩

/-- Building a `Dependencies` value by a sequence of calls. -/
def build (ops : List Op) : Dependencies :=
  ops.foldl
    (fun d op =>
      match op with
      | .addEdge a b => d.addEdge a b
      | .addRoot r => d.addRoot r)
    Dependencies.new

/-- Rust `self.edges.get(&i)`, iterated: the stored successor set of `i` (empty if
absent). -/
def succs (edges : List (Nat × List Nat)) (i : Nat) : List Nat :=
  match edges.find? (fun e => e.1 = i) with
  | some e => e.2
  | none => []

/-- The shared inner loop of `get_reachable` (wdwarf-cp/src/gc.rs:44-53 and
56-64): for each successor `j` not yet reachable, insert it and push it on the
queue.  `Vec::push`/`Vec::pop` is a LIFO stack, modelled by consing to the
front of a list. -/
def pushSuccs (st : Finset ℕ × List ℕ) (js : List ℕ) : Finset ℕ × List ℕ :=
  js.foldl (fun st j => if j ∈ st.1 then st else (insert j st.1, j :: st.2)) st

/-- All edge targets: a bound on everything `pushSuccs` can enqueue. -/
def edgeTargets (edges : List (Nat × List Nat)) : Finset ℕ :=
  edges.foldr (fun e s => e.2.toFinset ∪ s) ∅

/-- Fuel bound used to run the drain loop to completion. -/
def gcMeasure (tg : Finset ℕ) (st : Finset ℕ × List ℕ) : ℕ :=
  2 * (tg \ st.1).card + st.2.length

/-- The `while let Some(i) = queue.pop()` loop of `get_reachable`
(wdwarf-cp/src/gc.rs:55-65), run with explicit fuel; with fuel
`gcMeasure (edgeTargets edges) st` the queue is proven to drain before the
fuel runs out (and a run out of fuel can only return with an empty queue). -/
def drainLoop (edges : List (Nat × List Nat)) : ℕ → Finset ℕ × List ℕ → Finset ℕ
  | 0, st => st.1
  | fuel + 1, st =>
      match st with
      | (reachable, []) => reachable
      | (reachable, i :: rest) =>
          drainLoop edges fuel (pushSuccs (reachable, rest) (succs edges i))

/-- Rust `Dependencies::get_reachable` (wdwarf-cp/src/gc.rs:41-67): clone the
roots, seed the queue from each root's successors, then drain. -/
def Dependencies.getReachable (d : Dependencies) : Finset ℕ :=
  let st := d.roots.foldl (fun st i => pushSuccs st (succs d.edges i))
    (d.roots.toFinset, [])
  drainLoop d.edges (gcMeasure (edgeTargets d.edges) st) st

/-- Reachability from the roots through zero or more forward edges, stated
directly over the `add_edge`/`add_root` call sequence. -/
inductive Reaches (ops : List Op) : ℕ → Prop
  | root (r : ℕ) (hr : Op.addRoot r ∈ ops) : Reaches ops r
  | step (a b : ℕ) (ha : Reaches ops a) (hb : Op.addEdge a b ∈ ops) : Reaches ops b

end GC

/-! ### The line-program rewrite (wdwarf-cp/src/convert.rs) -/

namespace LP

/-- Rust `TempLineRow` (wdwarf-cp/src/convert.rs:593-606). -/
structure TempLineRow : Type where
  addressOffset : Nat
  opIndex : Nat
  file : Nat
  line : Nat
  column : Nat
  discriminator : Nat
  isStatement : Bool
  basicBlock : Bool
  prologueEnd : Bool
  epilogueBegin : Bool
  isa : Nat
  deriving DecidableEq, Repr

/-- Rust `TempLineSequence` (wdwarf-cp/src/convert.rs:566-570). -/
structure TempLineSequence : Type where
  baseAddress : Option Nat
  rows : List TempLineRow
  deriving DecidableEq, Repr

/-- Rust `TempLineSequence::new` / `clear` (wdwarf-cp/src/convert.rs:573-583). -/
def TempLineSequence.new : TempLineSequence := ⟨none, []⟩

/-- Rust `TempLineSequence::translate_base_address`
(wdwarf-cp/src/convert.rs:585-590), for a translator with base translation
`tbase`. -/
def TempLineSequence.translateBaseAddress (seq : TempLineSequence)
    (tbase : Nat → Option Address) : Option Address :=
  match seq.baseAddress with
  | none => none
  | some b => tbase b

/-- A row of the output `LineProgram`: the fields set on `program.row()`
before `generate_row()` (wdwarf-cp/src/convert.rs:736-747). -/
structure OutRow : Type where
  addressOffset : Nat
  opIndex : Nat
  file : Nat
  line : Nat
  column : Nat
  discriminator : Nat
  isStatement : Bool
  basicBlock : Bool
  prologueEnd : Bool
  epilogueBegin : Bool
  isa : Nat
  deriving DecidableEq, Repr

/-- One emitted sequence of the output program: `begin_sequence(base)`, the
generated rows, `end_sequence(endAddress)`. -/
structure OutSequence : Type where
  base : Address
  rows : List OutRow
  endAddress : Nat
  deriving DecidableEq, Repr

/-- Copying a temp row into the output row at a translated offset
(wdwarf-cp/src/convert.rs:736-746). -/
def rowFromTemp (offset : Nat) (r : TempLineRow) : OutRow :=
  ⟨offset, r.opIndex, r.file, r.line, r.column, r.discriminator, r.isStatement,
    r.basicBlock, r.prologueEnd, r.epilogueBegin, r.isa⟩

/-- The `end_sequence` branch of `from_line_program`
(wdwarf-cp/src/convert.rs:711-751), for a translator given by `tbase`
(`translate_base_address`) and `toffset` (`translate_offset`): translate the
stored base, drop a `Constant(0)` or failed translation (discarding the whole
pending sequence), otherwise emit the collected `(offset, row)` pairs sorted
by offset, and clear the pending sequence. -/
def handleEndSequence (tbase : Nat → Option Address)
    (toffset : Nat → Nat → List Nat) (seq : TempLineSequence)
    (prog : List OutSequence) (endAddr : Nat) :
    List OutSequence × TempLineSequence :=
  match seq.baseAddress with
  | none => (prog, TempLineSequence.new)
  | some b =>
      match
        (match tbase b with
         | some (.constant 0) => none
         | x => x) with
      | none => (prog, TempLineSequence.new)
      | some base =>
          let translatedRows := seq.rows.foldl
            (fun acc row => acc ++ (toffset b row.addressOffset).map (fun o => (o, row)))
            []
          let sorted := sortBy (fun a b => decide (a.1 < b.1)) translatedRows
          (prog ++ [⟨base, sorted.map (fun p => rowFromTemp p.1 p.2), endAddr⟩],
            TempLineSequence.new)

/-- Rust `ConvertError` cases reachable from the instruction loop of
`from_line_program` (wdwarf-cp/src/convert.rs:697-785). -/
inductive ConvertError : Type
  | unsupportedLineInstruction
  | invalidFileIndex
  deriving DecidableEq, Repr

/-- One processed instruction of the loop, at the level the row engine
reports it: a `SetAddress`, a `DefineFile`, an executed instruction that
produced an `end_sequence` row, one that produced a normal row (already
converted to a `TempLineRow`), or one that produced no row. -/
inductive LineEvent : Type
  | setAddress (v : Nat)
  | defineFile
  | endSequence (endAddr : Nat)
  | row (r : TempLineRow)
  | noRow
  deriving DecidableEq, Repr

/-- The body of the instruction loop of `from_line_program`
(wdwarf-cp/src/convert.rs:697-785) as a step on
(output program, pending sequence).  `SetAddress` records the base (the
program is never inside a sequence at instruction boundaries, begin/end being
emitted atomically in the `end_sequence` branch); `DefineFile` errors; an
`end_sequence` row runs `handleEndSequence`; a normal row is appended to the
pending buffer. -/
def lineStep (tbase : Nat → Option Address) (toffset : Nat → Nat → List Nat)
    (st : List OutSequence × TempLineSequence) :
    LineEvent → Except ConvertError (List OutSequence × TempLineSequence)
  | .setAddress v => .ok (st.1, ⟨some v, st.2.rows⟩)
  | .defineFile => .error .unsupportedLineInstruction
  | .endSequence endAddr => .ok (handleEndSequence tbase toffset st.2 st.1 endAddr)
  | .row r => .ok (st.1, ⟨st.2.baseAddress, st.2.rows ++ [r]⟩)
  | .noRow => .ok st

end LP

/-! ### Predicates used in claim statements -/

/-- Both coordinate sequences of every range's keypoints are non-decreasing
(the MonotonicRange invariant). -/
def AddressMap.sortedRanges (m : AddressMap) : Prop :=
  ∀ r ∈ m.ranges,
    List.Pairwise (· ≤ ·) (r.keypoints.map Prod.fst) ∧
    List.Pairwise (· ≤ ·) (r.keypoints.map Prod.snd)

/-- The target of the most recently inserted keypoint (the last keypoint of
the last range), if any. -/
def AddressMap.lastKeyTarget (m : AddressMap) : Option Nat :=
  m.ranges.getLast?.bind (fun r => r.keypoints.getLast?.map Prod.snd)

/-! # Lemmas -/

theorem mem_insertBy {lt : α → α → Bool} {x z : α} : ∀ {l : List α},
    z ∈ insertBy lt x l → z = x ∨ z ∈ l := by
  intro l
  induction l with
  | nil => intro h; simpa [insertBy] using h
  | cons y ys ih =>
      intro h
      by_cases hy : lt y x
      · simp only [insertBy, hy, if_true, List.mem_cons] at h
        rcases h with h | h
        · exact Or.inr (by simp [h])
        · rcases ih h with h | h
          · exact Or.inl h
          · exact Or.inr (by simp [h])
      · simp only [insertBy, hy, Bool.false_eq_true, if_false, List.mem_cons] at h
        rcases h with h | h
        · exact Or.inl h
        · exact Or.inr (by simpa using h)

theorem pairwise_insertByKey (f : α → ℕ) (x : α) {l : List α}
    (h : List.Pairwise (fun a b => f a ≤ f b) l) :
    List.Pairwise (fun a b => f a ≤ f b)
      (insertBy (fun a b => decide (f a < f b)) x l) := by
  induction l with
  | nil => simp [insertBy]
  | cons y ys ih =>
      rcases h with - | ⟨hy, hys⟩
      by_cases hlt : f y < f x
      · simp only [insertBy, decide_eq_true_eq]
        rw [if_pos hlt]
        refine List.Pairwise.cons ?_ (ih hys)
        intro z hz
        rcases mem_insertBy hz with rfl | hz
        · exact le_of_lt hlt
        · exact hy z hz
      · simp only [insertBy, decide_eq_true_eq]
        rw [if_neg hlt]
        refine List.Pairwise.cons ?_ (List.Pairwise.cons hy hys)
        intro z hz
        rcases List.mem_cons.mp hz with rfl | hz
        · exact le_of_not_lt hlt
        · exact le_trans (le_of_not_lt hlt) (hy z hz)

theorem pairwise_sortByKey (f : α → ℕ) (l : List α) :
    List.Pairwise (fun a b => f a ≤ f b)
      (sortBy (fun a b => decide (f a < f b)) l) := by
  induction l with
  | nil => simp [sortBy]
  | cons x xs ih => exact pairwise_insertByKey f x ih

theorem pairwise_rel_getLast {R : α → α → Prop} {l : List α} {x y : α}
    (h : List.Pairwise R l) (hx : l.getLast? = some x) (hy : y ∈ l) :
    R y x ∨ y = x := by
  induction l with
  | nil => cases hy
  | cons a as ih =>
      rcases h with - | ⟨ha, has⟩
      cases as with
      | nil =>
          simp only [List.getLast?_singleton, Option.some_inj] at hx
          simp only [List.mem_singleton] at hy
          exact Or.inr (hy.trans hx)
      | cons b bs =>
          rw [List.getLast?_cons_cons] at hx
          rcases List.mem_cons.mp hy with rfl | hy
          · exact Or.inl (ha x (List.mem_of_mem_getLast? hx))
          · exact ih has hx hy
theorem AddressMap.insert?_isSome_of_nonempty (m : AddressMap) (key addr : Nat)
    (h : m.rangesNonempty) :
    ∃ m2, m.insert? key addr = some m2 ∧ m2.rangesNonempty := by
  unfold insert?
  match hl : m.ranges.getLast? with
  | none =>
      dsimp only
      refine ⟨m.startRange key addr, rfl, ?_⟩
      intro r hr
      unfold startRange at hr
      simp only [List.mem_append, List.mem_singleton] at hr
      rcases hr with hr | hr
      · exact h r hr
      · subst hr; simp
  | some lastRange =>
      dsimp only
      have hmem : lastRange ∈ m.ranges := List.mem_of_mem_getLast? hl
      have hne : lastRange.keypoints ≠ [] := h lastRange hmem
      match hk : lastRange.keypoints.getLast? with
      | none =>
          exact absurd (List.getLast?_eq_none_iff.mp hk) hne
      | some kp =>
          simp only [Option.map_some']
          by_cases hc : kp.1 ≤ addr
          · refine ⟨_, by rw [if_pos hc], ?_⟩
            intro r hr
            simp only [List.mem_append, List.mem_singleton] at hr
            rcases hr with hr | hr
            · exact h r (List.mem_of_mem_dropLast hr)
            · subst hr; simp
          · refine ⟨_, by rw [if_neg hc], ?_⟩
            intro r hr
            simp only [List.mem_append, List.mem_cons, List.mem_singleton,
              List.not_mem_nil, or_false] at hr
            rcases hr with hr | hr | hr
            · exact h r (List.mem_of_mem_dropLast hr)
            · subst hr; simpa using hne
            · subst hr; simp

theorem mem_bInsert {α : Type} {k : ℕ} {v : α} {e : ℕ × α} : ∀ {l : BMap α},
    e ∈ bInsert k v l → e = (k, v) ∨ e ∈ l := by
  intro l
  induction l with
  | nil => intro h; simpa [bInsert] using h
  | cons f rest ih =>
      intro h
      by_cases h1 : k < f.1
      · rw [bInsert, if_pos h1] at h
        rcases List.mem_cons.mp h with h | h
        · exact Or.inl h
        · exact Or.inr h
      · by_cases h2 : k = f.1
        · rw [bInsert, if_neg h1, if_pos h2] at h
          rcases List.mem_cons.mp h with h | h
          · exact Or.inl h
          · exact Or.inr (by simp [h])
        · rw [bInsert, if_neg h1, if_neg h2] at h
          rcases List.mem_cons.mp h with h | h
          · exact Or.inr (by simp [h])
          · rcases ih h with h | h
            · exact Or.inl h
            · exact Or.inr (by simp [h])

theorem buildSortedMapAux_isSome (l : List (ℕ × MRange)) :
    ∀ (sm : BMap (MRange × ℕ)),
      (∀ e ∈ sm, e.2.1.keypoints ≠ []) →
      (∀ ie ∈ l, ie.2.keypoints ≠ []) →
      ∃ out,
        l.foldlM
          (fun sm ie =>
            (ie.2.keypoints.head?).map (fun kp => bInsert kp.1 (ie.2, ie.1) sm))
          sm = some out ∧
        ∀ e ∈ out, e.2.1.keypoints ≠ [] := by
  induction l with
  | nil => intro sm hsm _; exact ⟨sm, rfl, hsm⟩
  | cons ie rest ih =>
      intro sm hsm hl
      have hne : ie.2.keypoints ≠ [] := hl ie (by simp)
      match hh : ie.2.keypoints.head? with
      | none => exact absurd (List.head?_eq_none_iff.mp hh) hne
      | some kp =>
          have hsm2 : ∀ e ∈ bInsert kp.1 (ie.2, ie.1) sm, e.2.1.keypoints ≠ [] := by
            intro e he
            rcases mem_bInsert he with rfl | he
            · exact hne
            · exact hsm e he
          obtain ⟨out, hout, hprop⟩ :=
            ih (bInsert kp.1 (ie.2, ie.1) sm) hsm2 (fun x hx => hl x (by simp [hx]))
          refine ⟨out, ?_, hprop⟩
          rw [List.foldlM_cons, hh]
          simpa using hout

theorem sweepAux_isSome (l : List (ℕ × (MRange × ℕ))) :
    ∀ (st : BMap (List ℕ) × BMap (List ℕ)),
      (∀ e ∈ l, e.2.1.keypoints ≠ []) →
      ∃ out,
        l.foldlM
          (fun st e =>
            (e.2.1.keypoints.getLast?).map
              (fun lkp => processRange st e.1 lkp.1 e.2.2))
          st = some out := by
  induction l with
  | nil => intro st _; exact ⟨st, rfl⟩
  | cons e rest ih =>
      intro st hl
      have hne : e.2.1.keypoints ≠ [] := hl e (by simp)
      match hh : e.2.1.keypoints.getLast? with
      | none => exact absurd (List.getLast?_eq_none_iff.mp hh) hne
      | some lkp =>
          obtain ⟨out, hout⟩ :=
            ih (processRange st e.1 lkp.1 e.2.2) (fun x hx => hl x (by simp [hx]))
          refine ⟨out, ?_⟩
          rw [List.foldlM_cons, hh]
          simpa using hout

theorem generateIndex?_isSome {m : AddressMap} (h : m.rangesNonempty) :
    ∃ idx, generateIndex? m = some idx := by
  obtain ⟨sm, hsm, hprop⟩ :=
    buildSortedMapAux_isSome m.ranges.enum [] (by simp)
      (fun ie hie => h ie.2 (List.snd_mem_of_mem_enum hie))
  have hsm2 : buildSortedMap? m.ranges = some sm := hsm
  obtain ⟨st, hst⟩ := sweepAux_isSome sm (([], []) : BMap (List ℕ) × BMap (List ℕ)) hprop
  refine ⟨st.1.foldl (fun res e => bInsert e.1 e.2 res) st.2, ?_⟩
  unfold generateIndex?
  rw [hsm2]
  simp only [Option.bind_eq_bind, Option.some_bind]
  rw [hst]
  rfl

theorem insertAll_nonempty_aux (ops : List (ℕ × ℕ)) :
    ∀ m : AddressMap, m.rangesNonempty →
      ∃ m2, ops.foldlM (fun m op => m.insert? op.1 op.2) m = some m2 ∧
        m2.rangesNonempty := by
  induction ops with
  | nil => intro m hm; exact ⟨m, rfl, hm⟩
  | cons op rest ih =>
      intro m hm
      obtain ⟨m1, hm1, hm1ne⟩ := m.insert?_isSome_of_nonempty op.1 op.2 hm
      obtain ⟨m2, hm2, hm2ne⟩ := ih m1 hm1ne
      refine ⟨m2, ?_, hm2ne⟩
      rw [List.foldlM_cons, hm1]
      simpa using hm2

/-- C10: after any sequence of `AddressMap::new` and `AddressMap::insert`
calls (modelled by `insertAll?`), no `insert` call panics, every stored range
contains at least one keypoint, and the `keypoints.first().unwrap()` /
`keypoints.last().unwrap()` calls of `generate_index` never panic
(`generateIndex?` succeeds); the `ranges.last_mut().unwrap()` of `insert` is
guarded by the emptiness test and cannot panic either. -/
theorem c10_no_unwrap_panics (ops : List (ℕ × ℕ)) :
    ∃ m, AddressMap.insertAll? ops = some m ∧ m.rangesNonempty ∧
      ∃ idx, generateIndex? m = some idx := by
  obtain ⟨m, hm, hne⟩ :=
    insertAll_nonempty_aux ops AddressMap.new (by intro r hr; cases hr)
  exact ⟨m, hm, hne, generateIndex?_isSome hne⟩

theorem insert?_sorted_step (m : AddressMap) (key addr : ℕ)
    (hne : m.rangesNonempty) (hsorted : m.sortedRanges)
    (hlast : ∀ t, m.lastKeyTarget = some t → t ≤ key) :
    ∃ m2, m.insert? key addr = some m2 ∧ m2.rangesNonempty ∧ m2.sortedRanges ∧
      m2.lastKeyTarget = some key := by
  unfold AddressMap.insert?
  match hl : m.ranges.getLast? with
  | none =>
      dsimp only
      refine ⟨m.startRange key addr, rfl, ?_, ?_, ?_⟩
      · intro r hr
        unfold AddressMap.startRange at hr
        have hnil : m.ranges = [] := List.getLast?_eq_none_iff.mp hl
        simp only [hnil, List.nil_append, List.mem_singleton] at hr
        subst hr; simp
      · intro r hr
        unfold AddressMap.startRange at hr
        have hnil : m.ranges = [] := List.getLast?_eq_none_iff.mp hl
        simp only [hnil, List.nil_append, List.mem_singleton] at hr
        subst hr
        constructor <;> simp
      · have hnil : m.ranges = [] := List.getLast?_eq_none_iff.mp hl
        simp [AddressMap.lastKeyTarget, AddressMap.startRange, hnil]
  | some lastRange =>
      dsimp only
      have hmem : lastRange ∈ m.ranges := List.mem_of_mem_getLast? hl
      have hnekp : lastRange.keypoints ≠ [] := hne lastRange hmem
      match hk : lastRange.keypoints.getLast? with
      | none => exact absurd (List.getLast?_eq_none_iff.mp hk) hnekp
      | some kp =>
          have hkt : kp.2 ≤ key := by
            refine hlast kp.2 ?_
            unfold AddressMap.lastKeyTarget
            rw [hl, Option.some_bind, hk, Option.map_some']
          have hfst : ∀ a ∈ lastRange.keypoints.map Prod.fst, a ≤ kp.1 := by
            intro a ha
            have hgl : (lastRange.keypoints.map Prod.fst).getLast? = some kp.1 := by
              rw [List.getLast?_map, hk, Option.map_some']
            rcases pairwise_rel_getLast (hsorted lastRange hmem).1 hgl ha with h | h
            · exact h
            · exact le_of_eq h
          have hsnd : ∀ b ∈ lastRange.keypoints.map Prod.snd, b ≤ kp.2 := by
            intro b hb
            have hgl : (lastRange.keypoints.map Prod.snd).getLast? = some kp.2 := by
              rw [List.getLast?_map, hk, Option.map_some']
            rcases pairwise_rel_getLast (hsorted lastRange hmem).2 hgl hb with h | h
            · exact h
            · exact le_of_eq h
          simp only [Option.map_some']
          by_cases hc : kp.1 ≤ addr
          · rw [if_pos hc]
            refine ⟨_, rfl, ?_, ?_, ?_⟩
            · intro r hr
              simp only [List.mem_append, List.mem_singleton] at hr
              rcases hr with hr | hr
              · exact hne r (List.mem_of_mem_dropLast hr)
              · subst hr; simp
            · intro r hr
              simp only [List.mem_append, List.mem_singleton] at hr
              rcases hr with hr | hr
              · exact hsorted r (List.mem_of_mem_dropLast hr)
              · subst hr
                constructor
                · simp only [List.map_append]
                  rw [List.pairwise_append]
                  refine ⟨(hsorted lastRange hmem).1, by simp, ?_⟩
                  intro a ha b hb
                  simp only [List.map_cons, List.map_nil, List.mem_singleton] at hb
                  subst hb
                  exact le_trans (hfst a ha) hc
                · simp only [List.map_append]
                  rw [List.pairwise_append]
                  refine ⟨(hsorted lastRange hmem).2, by simp, ?_⟩
                  intro a ha b hb
                  simp only [List.map_cons, List.map_nil, List.mem_singleton] at hb
                  subst hb
                  exact le_trans (hsnd a ha) hkt
            · unfold AddressMap.lastKeyTarget
              rw [List.getLast?_concat, Option.some_bind, List.getLast?_concat,
                Option.map_some']
          · rw [if_neg hc]
            refine ⟨_, rfl, ?_, ?_, ?_⟩
            · intro r hr
              simp only [List.mem_append, List.mem_cons, List.mem_singleton,
                List.not_mem_nil, or_false] at hr
              rcases hr with hr | hr | hr
              · exact hne r (List.mem_of_mem_dropLast hr)
              · subst hr; simpa using hnekp
              · subst hr; simp
            · intro r hr
              simp only [List.mem_append, List.mem_cons, List.mem_singleton,
                List.not_mem_nil, or_false] at hr
              rcases hr with hr | hr | hr
              · exact hsorted r (List.mem_of_mem_dropLast hr)
              · subst hr; exact hsorted lastRange hmem
              · subst hr; constructor <;> simp
            · unfold AddressMap.lastKeyTarget
              rw [show m.ranges.dropLast ++
                    [(⟨lastRange.keypoints, key⟩ : MRange), ⟨[(addr, key)], key⟩] =
                  (m.ranges.dropLast ++ [⟨lastRange.keypoints, key⟩]) ++
                    [⟨[(addr, key)], key⟩] by simp]
              rw [List.getLast?_concat, Option.some_bind]
              simp

theorem insertAll_sorted_aux (ops : List (ℕ × ℕ)) :
    ∀ m : AddressMap, m.rangesNonempty → m.sortedRanges →
      (∀ t, m.lastKeyTarget = some t → ∀ k ∈ ops.map Prod.fst, t ≤ k) →
      List.Pairwise (· ≤ ·) (ops.map Prod.fst) →
      ∃ m2, ops.foldlM (fun m op => m.insert? op.1 op.2) m = some m2 ∧
        m2.sortedRanges := by
  induction ops with
  | nil => intro m _ hs _ _; exact ⟨m, rfl, hs⟩
  | cons op rest ih =>
      intro m hne hs hops hpair
      obtain ⟨m1, hm1, hm1ne, hm1s, hm1last⟩ :=
        insert?_sorted_step m op.1 op.2 hne hs
          (fun t ht => hops t ht op.1 (by simp))
      simp only [List.map_cons] at hpair
      rcases hpair with - | ⟨hop, hrest⟩
      obtain ⟨m2, hm2, hm2s⟩ := ih m1 hm1ne hm1s
        (fun t ht k hk => by
          rw [hm1last] at ht
          cases ht
          exact hop k hk)
        hrest
      refine ⟨m2, ?_, hm2s⟩
      rw [List.foldlM_cons, hm1]
      simpa using hm2

/-- C5: if the targets of a stream of `insert(target, original)` calls are
non-decreasing, then in the resulting `AddressMap` every range's keypoints
have non-decreasing original coordinates and non-decreasing target
coordinates. -/
theorem c5_streamed_inserts_monotonic (ops : List (ℕ × ℕ)) (m : AddressMap)
    (hkeys : List.Pairwise (· ≤ ·) (ops.map Prod.fst))
    (hm : AddressMap.insertAll? ops = some m) :
    m.sortedRanges := by
  obtain ⟨m2, hm2, hm2s⟩ :=
    insertAll_sorted_aux ops AddressMap.new
      (by intro r hr; cases hr)
      (by intro r hr; cases hr)
      (by intro t ht; cases ht)
      hkeys
  rw [AddressMap.insertAll?] at hm
  rw [hm] at hm2
  cases hm2
  exact hm2s

/-- Witness for C5 at the call stream insert(1, 5); insert(2, 3). -/
theorem c5_streamed_inserts_monotonic_witness :
    (⟨[⟨[(5, 1)], 2⟩, ⟨[(3, 2)], 2⟩]⟩ : AddressMap).sortedRanges :=
  c5_streamed_inserts_monotonic [(1, 5), (2, 3)] _ (by decide) (by decide)

/-- C4 counterexample: after insert(10, 5) the open range's `last` is 10;
the monotonicity-violating insert(20, 3) changes that range's `last` to 20 —
it is NOT left unchanged as the claim states.  Moreover in the wdwarf-cp
crate the violating insert(6, 7) (original 7 < last keypoint original 10)
does not even close the range: the keypoint is appended because the
comparison there is against the range's `last` target (5 ≤ 7). -/
theorem c4_counterexample :
    (AddressMap.insertAll? [(10, 5)]).map (fun m => m.ranges.map MRange.last) =
        some [10] ∧
      (AddressMap.insertAll? [(10, 5), (20, 3)]).map
          (fun m => m.ranges.map MRange.last) =
        some [20, 20] ∧
      (CP.insertAll [(5, 10), (6, 7)]).ranges.length = 1 := by
  decide

/-- C4 as amended: on a monotonicity-violating `insert(key, addr)` the open
range is closed with its keypoints untouched but its `last` target field SET
TO THE NEW TARGET `key`, and a fresh single-keypoint range is started.  In
the wdwarf crate the violation test compares `addr` with the last keypoint's
original address; in the wdwarf-cp crate it compares `addr` with the open
range's `last` target value. -/
theorem c4_insert_on_violation (m : AddressMap) (key addr : ℕ)
    (lastRange : MRange) (kp : ℕ × ℕ)
    (hl : m.ranges.getLast? = some lastRange)
    (hwd : lastRange.keypoints.getLast? = some kp) :
    (addr < kp.1 →
      m.insert? key addr =
        some ⟨m.ranges.dropLast ++
          [⟨lastRange.keypoints, key⟩, ⟨[(addr, key)], key⟩]⟩) ∧
    (addr < lastRange.last →
      CP.insert m key addr =
        ⟨m.ranges.dropLast ++
          [⟨lastRange.keypoints, key⟩, ⟨[(addr, key)], key⟩]⟩) := by
  constructor
  · intro hviol
    unfold AddressMap.insert?
    rw [hl]
    dsimp only
    rw [hwd]
    simp only [Option.map_some']
    rw [if_neg (not_le.mpr hviol)]
  · intro hviol
    unfold CP.insert
    rw [hl]
    dsimp only
    rw [if_neg (not_le.mpr hviol)]

/-- Witness for C4 at the concrete one-range maps used in the
counterexample. -/
theorem c4_insert_on_violation_witness :
    AddressMap.insert? ⟨[⟨[(5, 10)], 10⟩]⟩ 20 3 =
        some ⟨[⟨[(5, 10)], 20⟩, ⟨[(3, 20)], 20⟩]⟩ ∧
      CP.insert ⟨[⟨[(5, 10)], 5⟩]⟩ 6 3 = ⟨[⟨[(5, 10)], 6⟩, ⟨[(3, 6)], 6⟩]⟩ := by
  constructor
  · simpa using
      (c4_insert_on_violation ⟨[⟨[(5, 10)], 10⟩]⟩ 20 3 ⟨[(5, 10)], 10⟩ (5, 10)
        rfl rfl).1 (by decide)
  · simpa using
      (c4_insert_on_violation ⟨[⟨[(5, 10)], 5⟩]⟩ 6 3 ⟨[(5, 10)], 5⟩ (5, 10)
        rfl rfl).2 (by decide)

/-- C6 counterexample: with the map built by insert(0x100, 0x10),
insert(0x120, 0x14), insert(0x200, 0x40) and function ranges
[(0x100, 0x140), (0x200, 0x240)], the call translate_function_range(0x30, 1)
does NOT return None as the claim states: original 0x30 falls between the
keypoints at 0x14 (target 0x120, inside the first function range) and 0x40
(target 0x200, inside the second), and the source prefers the right
neighbour, returning Some((Constant(0x200), 0x40)). -/
theorem c6_counterexample :
    (AddressMapIndexed.from?
        ((AddressMap.insertAll? [(0x100, 0x10), (0x120, 0x14), (0x200, 0x40)]).getD
          AddressMap.new)
        [(0x100, 0x140), (0x200, 0x240)]).map
      (fun t => tfTranslateFunctionRange t 0x30 1) =
    some (some (Address.constant 0x200, 0x40)) := by
  decide

/-- C6 as amended: on the same translator, translate_function_range(0x10, 5)
returns Some((Constant(0x100), 0x40)); translate_function_range(0x40, 0)
returns Some((Constant(0x200), 0x40)); and translate_function_range(0x30, 1)
returns Some((Constant(0x200), 0x40)) (the right-neighbour function range,
not None). -/
theorem c6_function_range_scenario :
    (AddressMapIndexed.from?
        ((AddressMap.insertAll? [(0x100, 0x10), (0x120, 0x14), (0x200, 0x40)]).getD
          AddressMap.new)
        [(0x100, 0x140), (0x200, 0x240)]).map
      (fun t =>
        (tfTranslateFunctionRange t 0x10 5, tfTranslateFunctionRange t 0x40 0,
          tfTranslateFunctionRange t 0x30 1)) =
    some (some (Address.constant 0x100, 0x40), some (Address.constant 0x200, 0x40),
      some (Address.constant 0x200, 0x40)) := by
  decide

/-- C1 (code bug): on the map built by insert(1000, 0), insert(1001, 100),
insert(1002, 10), insert(1003, 20), the original address 100 is a keypoint of
range 0 (paired with target 1001, and range 0's original span [0, 100] covers
100), yet `lookup_address(100)` yields only [1003]: `generate_index` seeds the
`last_addr` entry at `first_addr` (address_translator.rs:213 inserts at
`first_addr` although the guard on line 206 checked `last_addr`), so range 0
is dropped from the index at keys above 10 and the lookup resolves through
range 1's tail instead of range 0's keypoint. -/
theorem c1_lookup_misses_keypoint :
    (AddressMap.insertAll? [(1000, 0), (1001, 100), (1002, 10), (1003, 20)]).map
      (fun m =>
        (m.ranges.map MRange.keypoints,
          (generateIndex? m).map (fun idx => lookupAddress m idx 100))) =
    some ([[(0, 1000), (100, 1001)], [(10, 1002), (20, 1003)]], some [1003]) := by
  decide

/-- C7: when the `end_sequence` instruction is reached and the stored base
address translates to nothing or to `Constant(0)`, the pending sequence is
discarded silently: the instruction step returns `ok` (no error), the output
program is unchanged (no rows, no `end_sequence` emitted), and the pending
buffer is cleared before processing continues. -/
theorem c7_failed_base_discards_sequence (tbase : ℕ → Option Address)
    (toffset : ℕ → ℕ → List ℕ) (st : List LP.OutSequence × LP.TempLineSequence)
    (endAddr : ℕ)
    (h : st.2.translateBaseAddress tbase = none ∨
      st.2.translateBaseAddress tbase = some (Address.constant 0)) :
    LP.lineStep tbase toffset st (.endSequence endAddr) =
      .ok (st.1, LP.TempLineSequence.new) := by
  unfold LP.lineStep LP.handleEndSequence
  match hb : st.2.baseAddress with
  | none => rfl
  | some b =>
      have hba : st.2.translateBaseAddress tbase = tbase b := by
        unfold LP.TempLineSequence.translateBaseAddress
        rw [hb]
      rw [hba] at h
      dsimp only
      rcases h with h | h <;> rw [h]

/-- Witness for C7: a pending sequence with base address 1 and a translator
that fails on every address. -/
theorem c7_failed_base_discards_sequence_witness :
    LP.lineStep (fun _ => none) (fun _ _ => [])
        (([], ⟨some 1, []⟩) : List LP.OutSequence × LP.TempLineSequence)
        (.endSequence 7) =
      .ok ([], LP.TempLineSequence.new) :=
  c7_failed_base_discards_sequence (fun _ => none) (fun _ _ => [])
    ([], ⟨some 1, []⟩) 7 (Or.inl rfl)

/-- C8: every sequence emitted by the line-program rewrite has its translated
(offset, row) pairs sorted by offset before emission, so the emitted row
addresses are non-decreasing. -/
theorem c8_emitted_rows_sorted (tbase : ℕ → Option Address)
    (toffset : ℕ → ℕ → List ℕ) (seq : LP.TempLineSequence)
    (prog : List LP.OutSequence) (endAddr : ℕ) (s : LP.OutSequence)
    (seq2 : LP.TempLineSequence)
    (h : LP.handleEndSequence tbase toffset seq prog endAddr = (prog ++ [s], seq2)) :
    List.Pairwise (· ≤ ·) (s.rows.map LP.OutRow.addressOffset) := by
  unfold LP.handleEndSequence at h
  match hb : seq.baseAddress with
  | none =>
      rw [hb] at h
      dsimp only at h
      have h1 := congrArg Prod.fst h
      simp at h1
  | some b =>
      rw [hb] at h
      dsimp only at h
      match hx : (match tbase b with | some (.constant 0) => none | x => x) with
      | none =>
          rw [hx] at h
          dsimp only at h
          have h1 := congrArg Prod.fst h
          simp at h1
      | some base =>
          rw [hx] at h
          dsimp only at h
          have h1 := congrArg Prod.fst h
          dsimp only at h1
          have h2 : s =
              ⟨base,
                (sortBy (fun a b => decide (a.1 < b.1))
                    (seq.rows.foldl
                      (fun acc row =>
                        acc ++ (toffset b row.addressOffset).map (fun o => (o, row)))
                      [])).map (fun p => LP.rowFromTemp p.1 p.2),
                endAddr⟩ := by
            have h3 := List.append_cancel_left h1
            simpa using h3.symm
          subst h2
          dsimp only
          rw [List.map_map]
          rw [List.pairwise_map]
          exact pairwise_sortByKey Prod.fst _

/-- Witness for C8: a two-row pending sequence whose rows translate to
offsets 4 and 0; the emitted sequence carries them in order 0, 4. -/
theorem c8_emitted_rows_sorted_witness :
    List.Pairwise (· ≤ ·)
      ((LP.OutSequence.mk (Address.constant 5)
          [LP.rowFromTemp 0 ⟨0, 0, 1, 7, 0, 0, true, false, false, false, 0⟩,
            LP.rowFromTemp 4 ⟨4, 0, 1, 8, 0, 0, true, false, false, false, 0⟩]
          9).rows.map LP.OutRow.addressOffset) :=
  c8_emitted_rows_sorted (fun _ => some (Address.constant 5)) (fun _ o => [o])
    ⟨some 1,
      [⟨4, 0, 1, 8, 0, 0, true, false, false, false, 0⟩,
        ⟨0, 0, 1, 7, 0, 0, true, false, false, false, 0⟩]⟩
    [] 9 _ LP.TempLineSequence.new (by decide)

/-- C9: every `Address` produced by `IdentityAddressTranslator` and
`TranformAddressTranslator` — from `translate_address`, `translate_range`,
`translate_function_range`, and hence `translate_base_address` — is of the
`Constant` variant; consequently `compare_addresses` and
`calc_address_offset` applied to any two such outputs never reach their
"incompatible addresses" panic branch. -/
theorem c9_translator_outputs_constant :
    (∀ (strip : Bool) (addr : ℕ),
        ∀ a ∈ idTranslateAddress strip addr, a.isConstant = true) ∧
    (∀ (strip : Bool) (start len : ℕ),
        ∀ p ∈ idTranslateRange strip start len, p.1.isConstant = true) ∧
    (∀ (strip : Bool) (start len : ℕ) (p : Address × ℕ),
        idTranslateFunctionRange strip start len = some p →
          p.1.isConstant = true) ∧
    (∀ (t : AddressMapIndexed) (addr : ℕ),
        ∀ a ∈ tfTranslateAddress t addr, a.isConstant = true) ∧
    (∀ (t : AddressMapIndexed) (addr : ℕ) (a : Address),
        tfTranslateBaseAddress t addr = some a → a.isConstant = true) ∧
    (∀ (t : AddressMapIndexed) (start len : ℕ),
        ∀ p ∈ tfTranslateRange t start len, p.1.isConstant = true) ∧
    (∀ (t : AddressMapIndexed) (start len : ℕ) (p : Address × ℕ),
        tfTranslateFunctionRange t start len = some p →
          p.1.isConstant = true) ∧
    (∀ (strip : Bool) (addr : ℕ) (b : Option Address),
        defaultTranslateBase (idTranslateAddress strip) addr = some b →
          ∀ a, b = some a → a.isConstant = true) ∧
    (∀ a b : Address, a.isConstant = true → b.isConstant = true →
        compareAddresses a b ≠ none ∧ calcAddressOffset a b ≠ none) := by
  refine ⟨?_, ?_, ?_, ?_, ?_, ?_, ?_, ?_, ?_⟩
  · intro strip addr a ha
    unfold idTranslateAddress at ha
    split at ha
    · cases ha
    · rcases List.mem_singleton.mp ha with rfl; rfl
  · intro strip start len p hp
    unfold idTranslateRange at hp
    split at hp
    · cases hp
    · rcases List.mem_singleton.mp hp with rfl; rfl
  · intro strip start len p hp
    unfold idTranslateFunctionRange at hp
    split at hp
    · cases hp
    · cases hp; rfl
  · intro t addr a ha
    unfold tfTranslateAddress at ha
    split at ha
    · cases ha
    · obtain ⟨x, -, rfl⟩ := List.mem_map.mp ha; rfl
  · intro t addr a ha
    unfold tfTranslateBaseAddress at ha
    split at ha
    · cases ha
    · obtain ⟨x, -, rfl⟩ := Option.map_eq_some'.mp ha; rfl
  · intro t start len p hp
    unfold tfTranslateRange at hp
    split at hp
    · cases hp
    · split at hp
      · cases hp
      · obtain ⟨x, -, rfl⟩ := List.mem_map.mp hp; rfl
  · intro t start len p hp
    unfold tfTranslateFunctionRange at hp
    obtain ⟨x, -, rfl⟩ := Option.map_eq_some'.mp hp; rfl
  · intro strip addr b hb a hab
    subst hab
    unfold defaultTranslateBase at hb
    revert hb
    unfold idTranslateAddress
    split
    · intro hb
      rw [show minByAddr [] = some none from rfl] at hb
      cases Option.some.inj hb
    · intro hb
      rw [show ∀ v, minByAddr [Address.constant v] = some (some (Address.constant v))
          from fun v => rfl] at hb
      have h2 := Option.some.inj (Option.some.inj hb)
      rw [← h2]
      rfl
  · intro a b ha hb
    cases a with
    | constant v1 =>
        cases b with
        | constant v2 => exact ⟨by simp [compareAddresses], by simp [calcAddressOffset]⟩
        | symbol s2 a2 => cases hb
    | symbol s1 a1 => cases ha

/-- Witness for C9: the identity translator's output at address 5 is a
constant, and comparing/subtracting two such outputs does not panic. -/
theorem c9_translator_outputs_constant_witness :
    (Address.constant 5).isConstant = true ∧
      compareAddresses (Address.constant 5) (Address.constant 7) ≠ none ∧
      calcAddressOffset (Address.constant 5) (Address.constant 7) ≠ none :=
  ⟨c9_translator_outputs_constant.1 false 5 (Address.constant 5) (by decide),
    c9_translator_outputs_constant.2.2.2.2.2.2.2.2 (Address.constant 5)
      (Address.constant 7) rfl rfl⟩

theorem bInsert_sortedKeys {α : Type} {k : ℕ} {v : α} : ∀ {l : BMap α},
    List.Pairwise (fun a b => a.1 < b.1) l →
    List.Pairwise (fun a b => a.1 < b.1) (bInsert k v l) := by
  intro l
  induction l with
  | nil => intro _; simp [bInsert]
  | cons e rest ih =>
      intro h
      rcases h with - | ⟨he, hrest⟩
      by_cases h1 : k < e.1
      · rw [bInsert, if_pos h1]
        refine List.Pairwise.cons ?_ (List.Pairwise.cons he hrest)
        intro z hz
        rcases List.mem_cons.mp hz with rfl | hz
        · exact h1
        · exact lt_trans h1 (he z hz)
      · by_cases h2 : k = e.1
        · rw [bInsert, if_neg h1, if_pos h2]
          refine List.Pairwise.cons ?_ hrest
          intro z hz
          rw [h2]
          exact he z hz
        · rw [bInsert, if_neg h1, if_neg h2]
          refine List.Pairwise.cons ?_ (ih hrest)
          intro z hz
          rcases mem_bInsert hz with rfl | hz
          · exact lt_of_le_of_ne (le_of_not_lt h1) (Ne.symm h2)
          · exact he z hz

theorem buildSortedMapAux_sorted (l : List (ℕ × MRange)) :
    ∀ (sm out : BMap (MRange × ℕ)),
      List.Pairwise (fun a b => a.1 < b.1) sm →
      l.foldlM
          (fun sm ie =>
            (ie.2.keypoints.head?).map (fun kp => bInsert kp.1 (ie.2, ie.1) sm))
          sm = some out →
      List.Pairwise (fun a b => a.1 < b.1) out := by
  induction l with
  | nil =>
      intro sm out hsm hout
      cases hout
      exact hsm
  | cons ie rest ih =>
      intro sm out hsm hout
      rw [List.foldlM_cons] at hout
      match hh : ie.2.keypoints.head? with
      | none => rw [hh] at hout; cases hout
      | some kp =>
          rw [hh] at hout
          simp only [Option.map_some'] at hout
          exact ih (bInsert kp.1 (ie.2, ie.1) sm) out (bInsert_sortedKeys hsm) hout

theorem bFindLE_mem {α : Type} {k : ℕ} {m : BMap α} {e : ℕ × α}
    (h : bFindLE k m = some e) : e ∈ m ∧ e.1 ≤ k := by
  unfold bFindLE at h
  have hmem := List.mem_of_mem_getLast? h
  have := List.mem_filter.mp hmem
  exact ⟨this.1, by simpa using this.2⟩

theorem bPredLT_mem {α : Type} {k : ℕ} {m : BMap α} {e : ℕ × α}
    (h : bPredLT k m = some e) : e ∈ m ∧ e.1 < k := by
  unfold bPredLT at h
  have hmem := List.mem_of_mem_getLast? h
  have := List.mem_filter.mp hmem
  exact ⟨this.1, by simpa using this.2⟩

theorem drainLT_single_lt {k first : ℕ} {v : List ℕ} {result : BMap (List ℕ)}
    (h : k < first) :
    drainLT first [(k, v)] result = ([], bInsert k v result) := by
  unfold drainLT
  rw [if_pos h]
  rfl

theorem seedActive_base (first : ℕ) : seedActive first first [] = [(first, [])] := by
  unfold seedActive bContains bPredLT
  simp [bInsert]

theorem seedActive_again (last first : ℕ) :
    seedActive last first [(first, [])] = [(first, [])] := by
  unfold seedActive
  by_cases h : bContains last ([(first, [])] : BMap (List ℕ))
  · rw [if_pos h]
  · rw [if_neg h]
    rcases hp : bPredLT last [(first, ([] : List ℕ))] with - | e
    · simp [bInsert]
    · have he := (bPredLT_mem hp).1
      have he2 : e = (first, []) := by simpa using he
      subst he2
      simp [bInsert]

theorem bMapRange_single (lo hi : ℕ) (f : List ℕ → List ℕ) (k : ℕ) (v : List ℕ) :
    bMapRange lo hi f [(k, v)] =
      [(k, if lo ≤ k ∧ k ≤ hi then f v else v)] := by
  unfold bMapRange
  simp only [List.map_cons, List.map_nil]
  split
  · rfl
  · rfl

theorem processRange_active_short (active result : BMap (List ℕ))
    (first last idx : ℕ)
    (ha : active = [] ∨ ∃ k v, active = [(k, v)] ∧ v.length ≤ 1 ∧ k < first)
    (hr : ∀ e ∈ result, e.2.length ≤ 1) :
    ∃ w res2, processRange (active, result) first last idx = ([(first, w)], res2) ∧
      w.length ≤ 1 ∧ ∀ e ∈ res2, e.2.length ≤ 1 := by
  rcases ha with rfl | ⟨k, v, rfl, hv, hk⟩
  · refine ⟨if first ≤ first ∧ first ≤ last then [idx] else [], result, ?_, ?_, hr⟩
    · unfold processRange
      rw [show drainLT first [] result = ([], result) from rfl]
      dsimp only
      rw [seedActive_base, seedActive_again, bMapRange_single]
      simp
    · split <;> simp
  · refine ⟨if first ≤ first ∧ first ≤ last then [idx] else [],
      bInsert k v result, ?_, ?_, ?_⟩
    · unfold processRange
      rw [drainLT_single_lt hk]
      dsimp only
      rw [seedActive_base, seedActive_again, bMapRange_single]
      simp
    · split <;> simp
    · intro e he
      rcases mem_bInsert he with rfl | he
      · exact hv
      · exact hr e he

theorem sweepAux_short (l : List (ℕ × (MRange × ℕ))) :
    ∀ (st out : BMap (List ℕ) × BMap (List ℕ)),
      List.Pairwise (fun a b => a.1 < b.1) l →
      (st.1 = [] ∨ ∃ k v, st.1 = [(k, v)] ∧ v.length ≤ 1 ∧ ∀ e ∈ l, k < e.1) →
      (∀ e ∈ st.2, e.2.length ≤ 1) →
      l.foldlM
          (fun st e =>
            (e.2.1.keypoints.getLast?).map
              (fun lkp => processRange st e.1 lkp.1 e.2.2))
          st = some out →
      (∀ e ∈ out.1, e.2.length ≤ 1) ∧ ∀ e ∈ out.2, e.2.length ≤ 1 := by
  induction l with
  | nil =>
      intro st out _ hact hres hout
      cases hout
      refine ⟨?_, hres⟩
      rcases hact with h | ⟨k, v, h, hv, -⟩
      · rw [h]; intro e he; cases he
      · rw [h]
        intro e he
        rcases List.mem_singleton.mp he with rfl
        exact hv
  | cons e rest ih =>
      intro st out hsorted hact hres hout
      rcases hsorted with - | ⟨hhead, htail⟩
      rw [List.foldlM_cons] at hout
      match hh : e.2.1.keypoints.getLast? with
      | none => rw [hh] at hout; cases hout
      | some lkp =>
          rw [hh] at hout
          simp only [Option.map_some'] at hout
          have hact2 : st.1 = [] ∨
              ∃ k v, st.1 = [(k, v)] ∧ v.length ≤ 1 ∧ k < e.1 := by
            rcases hact with h | ⟨k, v, h, hv, hk⟩
            · exact Or.inl h
            · exact Or.inr ⟨k, v, h, hv, hk e (by simp)⟩
          obtain ⟨w, res2, hpr, hw, hres2⟩ :=
            processRange_active_short st.1 st.2 e.1 lkp.1 e.2.2 hact2 hres
          have hst : processRange (st.1, st.2) e.1 lkp.1 e.2.2 =
              processRange st e.1 lkp.1 e.2.2 := by rfl
          rw [hst] at hpr
          refine ih (processRange st e.1 lkp.1 e.2.2) out htail ?_ ?_ hout
          · rw [hpr]
            exact Or.inr ⟨e.1, w, rfl, hw, fun x hx => hhead x hx⟩
          · rw [hpr]
            exact hres2

theorem foldl_bInsert_short :
    ∀ (l : BMap (List ℕ)) (init : BMap (List ℕ)),
      (∀ e ∈ l, e.2.length ≤ 1) → (∀ e ∈ init, e.2.length ≤ 1) →
      ∀ e ∈ l.foldl (fun res e => bInsert e.1 e.2 res) init, e.2.length ≤ 1 := by
  intro l
  induction l with
  | nil => intro init _ hi e he; exact hi e he
  | cons x rest ih =>
      intro init hl hi e he
      refine ih (bInsert x.1 x.2 init) (fun z hz => hl z (by simp [hz])) ?_ e he
      intro z hz
      rcases mem_bInsert hz with rfl | hz
      · exact hl x (by simp)
      · exact hi z hz

theorem generateIndex?_lists_short {m : AddressMap} {idx : BMap (List ℕ)}
    (h : generateIndex? m = some idx) : ∀ e ∈ idx, e.2.length ≤ 1 := by
  unfold generateIndex? at h
  match hsm : buildSortedMap? m.ranges with
  | none => rw [hsm] at h; cases h
  | some sm =>
      rw [hsm] at h
      simp only [Option.bind_eq_bind, Option.some_bind] at h
      match hst : sm.foldlM
          (fun st e =>
            (e.2.1.keypoints.getLast?).map
              (fun lkp => processRange st e.1 lkp.1 e.2.2))
          (([], []) : BMap (List ℕ) × BMap (List ℕ)) with
      | none => rw [hst] at h; cases h
      | some st =>
          rw [hst] at h
          have hidx : st.1.foldl (fun res e => bInsert e.1 e.2 res) st.2 = idx := by
            simpa using h
          have hsorted : List.Pairwise (fun (a b : ℕ × (MRange × ℕ)) => a.1 < b.1) sm :=
            buildSortedMapAux_sorted m.ranges.enum [] sm (by simp) hsm
          obtain ⟨h1, h2⟩ :=
            sweepAux_short sm (([], []) : BMap (List ℕ) × BMap (List ℕ)) st hsorted
              (Or.inl rfl) (by intro e he; cases he) hst
          rw [← hidx]
          exact foldl_bInsert_short st.1 st.2 h1 h2

theorem lookupAddress_short {m : AddressMap} {idx : BMap (List ℕ)}
    (h : generateIndex? m = some idx) (addr : ℕ) :
    (lookupAddress m idx addr).length ≤ 1 := by
  unfold lookupAddress
  match he : bFindLE addr idx with
  | none => simp
  | some e =>
      simp only [List.length_map]
      exact generateIndex?_lists_short h e (bFindLE_mem he).1

/-- C3: for each of the crate's translators (the wdwarf and wdwarf-cp
`IdentityAddressTranslator` and `TranformAddressTranslator`),
`translate_base_address(o)` is `None` exactly when `translate_address(o)` is
empty, and otherwise is an element of `translate_address(o)` that is minimal
under `compare_addresses` (never `Greater` against any other element).  For
the wdwarf identity translator the stated value is the inherited
`min_by`-based default (which also never panics); for the wdwarf-cp
translators the value is stated relative to a non-panicking
`translate_address` run. -/
theorem c3_translate_base_is_min :
    (∀ (strip : Bool) (addr : ℕ),
      ∃ b, defaultTranslateBase (idTranslateAddress strip) addr = some b ∧
        (b = none ↔ idTranslateAddress strip addr = []) ∧
        ∀ x, b = some x → x ∈ idTranslateAddress strip addr ∧
          ∀ y ∈ idTranslateAddress strip addr,
            compareAddresses x y ≠ some Ordering.gt) ∧
    (∀ (m : AddressMap) (fr : List (ℕ × ℕ)) (t : AddressMapIndexed),
      AddressMapIndexed.from? m fr = some t → ∀ addr : ℕ,
        (tfTranslateBaseAddress t addr = none ↔ tfTranslateAddress t addr = []) ∧
        ∀ x, tfTranslateBaseAddress t addr = some x →
          x ∈ tfTranslateAddress t addr ∧
          ∀ y ∈ tfTranslateAddress t addr,
            compareAddresses x y ≠ some Ordering.gt) ∧
    (∀ (strip : Bool) (addr : ℕ),
      (CP.idTranslateBase strip addr = none ↔
        CP.idTranslateAddress strip addr = []) ∧
      ∀ x, CP.idTranslateBase strip addr = some x →
        x ∈ CP.idTranslateAddress strip addr ∧
        ∀ y ∈ CP.idTranslateAddress strip addr,
          compareAddresses x y ≠ some Ordering.gt) ∧
    (∀ (t : CP.Indexed) (addr : ℕ) (l : List Address),
      CP.tfTranslateAddress? t addr = some l →
        ∃ b, CP.tfTranslateBase? t addr = some b ∧
          (b = none ↔ l = []) ∧
          ∀ x, b = some x → x ∈ l ∧
            ∀ y ∈ l, compareAddresses x y ≠ some Ordering.gt) := by
  refine ⟨?_, ?_, ?_, ?_⟩
  · intro strip addr
    unfold defaultTranslateBase idTranslateAddress
    split
    · exact ⟨none, rfl, by simp, fun x hx => by cases hx⟩
    · refine ⟨some (Address.constant addr), rfl, by simp, ?_⟩
      intro x hx
      cases Option.some.inj hx
      refine ⟨by simp, ?_⟩
      intro y hy
      rcases List.mem_singleton.mp hy with rfl
      simp [compareAddresses, Nat.compare_eq_eq.mpr rfl]
  · intro m fr t hfrom addr
    obtain ⟨idx, hidx, ht⟩ : ∃ idx, generateIndex? m = some idx ∧
        t = ⟨m, idx,
          sortBy (fun a b => decide (a.1 < b.1 ∨ (a.1 = b.1 ∧ a.2 < b.2))) fr⟩ := by
      unfold AddressMapIndexed.from? at hfrom
      match hg : generateIndex? m with
      | none => rw [hg] at hfrom; cases hfrom
      | some idx =>
          rw [hg] at hfrom
          simp only [Option.map_some'] at hfrom
          exact ⟨idx, rfl, (Option.some.inj hfrom).symm⟩
    have hshort : (lookupAddress t.map t.index addr).length ≤ 1 := by
      rw [ht]
      exact lookupAddress_short hidx addr
    unfold tfTranslateBaseAddress tfTranslateAddress
    by_cases h0 : addr = 0
    · rw [if_pos h0, if_pos h0]
      exact ⟨by simp, fun x hx => by cases hx⟩
    · rw [if_neg h0, if_neg h0]
      match hl : lookupAddress t.map t.index addr with
      | [] => exact ⟨by simp, fun x hx => by cases hx⟩
      | [a] =>
          refine ⟨by simp, ?_⟩
          intro x hx
          simp only [List.head?_cons, Option.map_some'] at hx
          cases Option.some.inj hx
          refine ⟨by simp, ?_⟩
          intro y hy
          simp only [List.map_cons, List.map_nil, List.mem_singleton] at hy
          subst hy
          simp [fromTargetAddress, compareAddresses, Nat.compare_eq_eq.mpr rfl]
      | a :: b :: rest =>
          rw [hl] at hshort
          simp at hshort
  · intro strip addr
    unfold CP.idTranslateBase CP.defaultTranslateBase CP.idTranslateAddress
    split
    · exact ⟨by simp, fun x hx => by cases hx⟩
    · refine ⟨by simp, ?_⟩
      intro x hx
      simp only [List.head?_cons] at hx
      cases Option.some.inj hx
      refine ⟨by simp, ?_⟩
      intro y hy
      rcases List.mem_singleton.mp hy with rfl
      simp [compareAddresses, Nat.compare_eq_eq.mpr rfl]
  · intro t addr l hl
    have hb : CP.tfTranslateBase? t addr = some l.head? := by
      unfold CP.tfTranslateBase?
      rw [hl]
      rfl
    have hshape : l = [] ∨ ∃ v, l = [Address.constant v] := by
      unfold CP.tfTranslateAddress? at hl
      split at hl
      · exact Or.inl (Option.some.inj hl).symm
      · match hr : CP.lookupAddress? t.map t.index addr with
        | none => rw [hr] at hl; cases hl
        | some r =>
            rw [hr] at hl
            simp only [Option.map_some'] at hl
            cases r with
            | none => exact Or.inl (Option.some.inj hl).symm
            | some a => exact Or.inr ⟨a, (Option.some.inj hl).symm⟩
    refine ⟨l.head?, hb, ?_, ?_⟩
    · rcases hshape with rfl | ⟨v, rfl⟩ <;> simp
    · intro x hx
      rcases hshape with rfl | ⟨v, rfl⟩
      · cases hx
      · simp only [List.head?_cons] at hx
        cases Option.some.inj hx
        refine ⟨by simp, ?_⟩
        intro y hy
        rcases List.mem_singleton.mp hy with rfl
        simp [compareAddresses, Nat.compare_eq_eq.mpr rfl]

/-- Witness for C3: the wdwarf transform translator built from the map with
keypoints (16, 256), (20, 288), (64, 512), queried at original 20, and the
wdwarf-cp transform translator queried at original 16. -/
theorem c3_translate_base_is_min_witness :
    ((tfTranslateBaseAddress
          ⟨⟨[⟨[(16, 256), (20, 288), (64, 512)], 512⟩]⟩, [(16, [0])],
            [(256, 320), (512, 576)]⟩ 20 = none ↔
        tfTranslateAddress
          ⟨⟨[⟨[(16, 256), (20, 288), (64, 512)], 512⟩]⟩, [(16, [0])],
            [(256, 320), (512, 576)]⟩ 20 = []) ∧
      (∀ x, tfTranslateBaseAddress
          ⟨⟨[⟨[(16, 256), (20, 288), (64, 512)], 512⟩]⟩, [(16, [0])],
            [(256, 320), (512, 576)]⟩ 20 = some x →
        x ∈ tfTranslateAddress
          ⟨⟨[⟨[(16, 256), (20, 288), (64, 512)], 512⟩]⟩, [(16, [0])],
            [(256, 320), (512, 576)]⟩ 20 ∧
        ∀ y ∈ tfTranslateAddress
            ⟨⟨[⟨[(16, 256), (20, 288), (64, 512)], 512⟩]⟩, [(16, [0])],
              [(256, 320), (512, 576)]⟩ 20,
          compareAddresses x y ≠ some Ordering.gt)) ∧
    ∃ b, CP.tfTranslateBase? ⟨⟨[⟨[(16, 256), (20, 288)], 288⟩]⟩, [(16, [0])]⟩ 16 =
        some b ∧
      (b = none ↔ [Address.constant 256] = []) ∧
      ∀ x, b = some x → x ∈ [Address.constant 256] ∧
        ∀ y ∈ [Address.constant 256], compareAddresses x y ≠ some Ordering.gt :=
  ⟨c3_translate_base_is_min.2.1 ⟨[⟨[(16, 256), (20, 288), (64, 512)], 512⟩]⟩
      [(512, 576), (256, 320)]
      ⟨⟨[⟨[(16, 256), (20, 288), (64, 512)], 512⟩]⟩, [(16, [0])],
        [(256, 320), (512, 576)]⟩ (by decide) 20,
    c3_translate_base_is_min.2.2.2 ⟨⟨[⟨[(16, 256), (20, 288)], 288⟩]⟩, [(16, [0])]⟩
      16 [Address.constant 256] (by decide)⟩

theorem gc_pushSuccs_cons (st : Finset ℕ × List ℕ) (j : ℕ) (js : List ℕ) :
    GC.pushSuccs st (j :: js) =
      GC.pushSuccs (if j ∈ st.1 then st else (insert j st.1, j :: st.2)) js := rfl

theorem gc_pushSuccs_subset (js : List ℕ) :
    ∀ st : Finset ℕ × List ℕ, st.1 ⊆ (GC.pushSuccs st js).1 := by
  induction js with
  | nil => intro st; exact Finset.Subset.refl st.1
  | cons j js ih =>
      intro st
      rw [gc_pushSuccs_cons]
      by_cases hj : j ∈ st.1
      · rw [if_pos hj]; exact ih st
      · rw [if_neg hj]
        exact Finset.Subset.trans (Finset.subset_insert j st.1)
          (ih (insert j st.1, j :: st.2))

theorem gc_pushSuccs_queue_sub (js : List ℕ) :
    ∀ (st : Finset ℕ × List ℕ) (x : ℕ), x ∈ st.2 → x ∈ (GC.pushSuccs st js).2 := by
  induction js with
  | nil => intro st x hx; exact hx
  | cons j js ih =>
      intro st x hx
      rw [gc_pushSuccs_cons]
      by_cases hj : j ∈ st.1
      · rw [if_pos hj]; exact ih st x hx
      · rw [if_neg hj]
        exact ih (insert j st.1, j :: st.2) x (by simp [hx])

theorem gc_pushSuccs_mem_js (js : List ℕ) :
    ∀ (st : Finset ℕ × List ℕ) (j : ℕ), j ∈ js → j ∈ (GC.pushSuccs st js).1 := by
  induction js with
  | nil => intro st j hj; cases hj
  | cons j0 js ih =>
      intro st j hj
      rw [gc_pushSuccs_cons]
      rcases List.mem_cons.mp hj with rfl | hj
      · by_cases hj0 : j ∈ st.1
        · rw [if_pos hj0]
          exact gc_pushSuccs_subset js st hj0
        · rw [if_neg hj0]
          exact gc_pushSuccs_subset js (insert j st.1, j :: st.2) (Finset.mem_insert_self j st.1)
      · by_cases hj0 : j0 ∈ st.1
        · rw [if_pos hj0]; exact ih st j hj
        · rw [if_neg hj0]; exact ih (insert j0 st.1, j0 :: st.2) j hj

theorem gc_pushSuccs_reach_cases (js : List ℕ) :
    ∀ (st : Finset ℕ × List ℕ) (x : ℕ),
      x ∈ (GC.pushSuccs st js).1 → x ∈ st.1 ∨ x ∈ js := by
  induction js with
  | nil => intro st x hx; exact Or.inl hx
  | cons j js ih =>
      intro st x hx
      rw [gc_pushSuccs_cons] at hx
      by_cases hj : j ∈ st.1
      · rw [if_pos hj] at hx
        rcases ih st x hx with h | h
        · exact Or.inl h
        · exact Or.inr (by simp [h])
      · rw [if_neg hj] at hx
        rcases ih (insert j st.1, j :: st.2) x hx with h | h
        · rcases Finset.mem_insert.mp h with rfl | h
          · exact Or.inr (by simp)
          · exact Or.inl h
        · exact Or.inr (by simp [h])

theorem gc_pushSuccs_queue_in_reach (js : List ℕ) :
    ∀ (st : Finset ℕ × List ℕ),
      (∀ x ∈ st.2, x ∈ st.1) →
      ∀ x ∈ (GC.pushSuccs st js).2, x ∈ (GC.pushSuccs st js).1 := by
  induction js with
  | nil => intro st h x hx; exact h x hx
  | cons j js ih =>
      intro st h x hx
      rw [gc_pushSuccs_cons] at hx ⊢
      by_cases hj : j ∈ st.1
      · rw [if_pos hj] at hx ⊢; exact ih st h x hx
      · rw [if_neg hj] at hx ⊢
        refine ih (insert j st.1, j :: st.2) ?_ x hx
        intro z hz
        rcases List.mem_cons.mp hz with rfl | hz
        · exact Finset.mem_insert_self z st.1
        · exact Finset.mem_insert_of_mem (h z hz)

theorem gc_pushSuccs_new_in_queue (js : List ℕ) :
    ∀ (st : Finset ℕ × List ℕ) (x : ℕ),
      x ∈ (GC.pushSuccs st js).1 → x ∉ (GC.pushSuccs st js).2 →
      x ∈ st.1 ∧ x ∉ st.2 := by
  induction js with
  | nil => intro st x h1 h2; exact ⟨h1, h2⟩
  | cons j js ih =>
      intro st x h1 h2
      rw [gc_pushSuccs_cons] at h1 h2
      by_cases hj : j ∈ st.1
      · rw [if_pos hj] at h1 h2; exact ih st x h1 h2
      · rw [if_neg hj] at h1 h2
        obtain ⟨hr, hq⟩ := ih (insert j st.1, j :: st.2) x h1 h2
        rcases Finset.mem_insert.mp hr with rfl | hr
        · exact absurd (by simp : x ∈ x :: st.2) hq
        · exact ⟨hr, fun hx => hq (by simp [hx])⟩

theorem gc_succs_subset_targets (edges : List (ℕ × List ℕ)) (i : ℕ) :
    ∀ j ∈ GC.succs edges i, j ∈ GC.edgeTargets edges := by
  induction edges with
  | nil => intro j hj; simp [GC.succs] at hj
  | cons e rest ih =>
      intro j hj
      unfold GC.succs at hj
      rw [List.find?_cons] at hj
      unfold GC.edgeTargets
      rw [List.foldr_cons]
      by_cases he : e.1 = i
      · rw [decide_eq_true he] at hj
        exact Finset.mem_union_left _ (by simpa using hj)
      · rw [decide_eq_false he] at hj
        exact Finset.mem_union_right _ (ih j hj)

theorem gc_pushSuccs_measure (tg : Finset ℕ) (js : List ℕ)
    (hjs : ∀ j ∈ js, j ∈ tg) :
    ∀ st : Finset ℕ × List ℕ,
      GC.gcMeasure tg (GC.pushSuccs st js) ≤ GC.gcMeasure tg st := by
  induction js with
  | nil => intro st; exact le_refl _
  | cons j js ih =>
      intro st
      rw [gc_pushSuccs_cons]
      by_cases hj : j ∈ st.1
      · rw [if_pos hj]; exact ih (fun z hz => hjs z (by simp [hz])) st
      · rw [if_neg hj]
        refine le_trans (ih (fun z hz => hjs z (by simp [hz])) (insert j st.1, j :: st.2)) ?_
        unfold GC.gcMeasure
        have hjtg : j ∈ tg \ st.1 := Finset.mem_sdiff.mpr ⟨hjs j (by simp), hj⟩
        have hcard : (tg \ insert j st.1).card = (tg \ st.1).card - 1 := by
          rw [Finset.sdiff_insert]
          exact Finset.card_erase_of_mem hjtg
        have hpos : 1 ≤ (tg \ st.1).card := Finset.card_pos.mpr ⟨j, hjtg⟩
        simp only [hcard, List.length_cons]
        omega

theorem gc_drainLoop_supset (edges : List (ℕ × List ℕ)) :
    ∀ (fuel : ℕ) (st : Finset ℕ × List ℕ), st.1 ⊆ GC.drainLoop edges fuel st := by
  intro fuel
  induction fuel with
  | zero => intro st; exact Finset.Subset.refl _
  | succ fuel ih =>
      intro st
      match st with
      | (reachable, []) => exact Finset.Subset.refl _
      | (reachable, i :: rest) =>
          exact Finset.Subset.trans
            (gc_pushSuccs_subset (GC.succs edges i) (reachable, rest))
            (ih (GC.pushSuccs (reachable, rest) (GC.succs edges i)))

theorem gc_drainLoop_sound (edges : List (ℕ × List ℕ)) (R : ℕ → Prop)
    (hstep : ∀ a b, R a → b ∈ GC.succs edges a → R b) :
    ∀ (fuel : ℕ) (st : Finset ℕ × List ℕ),
      (∀ x ∈ st.1, R x) → (∀ x ∈ st.2, x ∈ st.1) →
      ∀ x ∈ GC.drainLoop edges fuel st, R x := by
  intro fuel
  induction fuel with
  | zero => intro st h1 _ x hx; exact h1 x hx
  | succ fuel ih =>
      intro st h1 h2 x hx
      match st, hx with
      | (reachable, []), hx => exact h1 x hx
      | (reachable, i :: rest), hx =>
          have hiR : R i := h1 i (h2 i (by simp))
          refine ih (GC.pushSuccs (reachable, rest) (GC.succs edges i)) ?_ ?_ x hx
          · intro z hz
            rcases gc_pushSuccs_reach_cases (GC.succs edges i) (reachable, rest) z hz
              with h | h
            · exact h1 z h
            · exact hstep i z hiR h
          · exact gc_pushSuccs_queue_in_reach (GC.succs edges i) (reachable, rest)
              (fun z hz => h2 z (by simp [hz]))

theorem gc_drainLoop_closed (edges : List (ℕ × List ℕ)) :
    ∀ (fuel : ℕ) (st : Finset ℕ × List ℕ),
      GC.gcMeasure (GC.edgeTargets edges) st ≤ fuel →
      (∀ x ∈ st.2, x ∈ st.1) →
      (∀ x ∈ st.1, x ∉ st.2 → ∀ y ∈ GC.succs edges x, y ∈ st.1) →
      ∀ x ∈ GC.drainLoop edges fuel st, ∀ y ∈ GC.succs edges x,
        y ∈ GC.drainLoop edges fuel st := by
  intro fuel
  induction fuel with
  | zero =>
      intro st hfuel h2 h3 x hx y hy
      have hq : st.2 = [] := by
        unfold GC.gcMeasure at hfuel
        have := Nat.le_zero.mp hfuel
        cases hl : st.2 with
        | nil => rfl
        | cons a as => rw [hl] at this; simp at this
      exact h3 x hx (by rw [hq]; exact List.not_mem_nil x) y hy
  | succ fuel ih =>
      intro st hfuel h2 h3 x hx y hy
      match st, hfuel, h2, h3, hx with
      | (reachable, []), hfuel, h2, h3, hx =>
          exact h3 x hx (List.not_mem_nil x) y hy
      | (reachable, i :: rest), hfuel, h2, h3, hx =>
          have hm1 := gc_pushSuccs_measure (GC.edgeTargets edges) (GC.succs edges i)
            (gc_succs_subset_targets edges i) (reachable, rest)
          have hm2 : GC.gcMeasure (GC.edgeTargets edges) (reachable, rest) + 1 =
              GC.gcMeasure (GC.edgeTargets edges) (reachable, i :: rest) := by
            unfold GC.gcMeasure
            simp only [List.length_cons]
            omega
          have hmeas : GC.gcMeasure (GC.edgeTargets edges)
              (GC.pushSuccs (reachable, rest) (GC.succs edges i)) ≤ fuel := by
            omega
          have hq2 : ∀ z ∈ (GC.pushSuccs (reachable, rest) (GC.succs edges i)).2,
              z ∈ (GC.pushSuccs (reachable, rest) (GC.succs edges i)).1 :=
            gc_pushSuccs_queue_in_reach (GC.succs edges i) (reachable, rest)
              (fun z hz => h2 z (by simp [hz]))
          have hc2 : ∀ z ∈ (GC.pushSuccs (reachable, rest) (GC.succs edges i)).1,
              z ∉ (GC.pushSuccs (reachable, rest) (GC.succs edges i)).2 →
              ∀ w ∈ GC.succs edges z,
                w ∈ (GC.pushSuccs (reachable, rest) (GC.succs edges i)).1 := by
            intro z hz hznq w hw
            obtain ⟨hzr, hzq⟩ :=
              gc_pushSuccs_new_in_queue (GC.succs edges i) (reachable, rest) z hz hznq
            by_cases hzi : z = i
            · subst hzi
              exact gc_pushSuccs_mem_js (GC.succs edges z) (reachable, rest) w hw
            · have hznq0 : z ∉ i :: rest := by
                intro hmem
                rcases List.mem_cons.mp hmem with h | h
                · exact hzi h
                · exact hzq h
              exact gc_pushSuccs_subset (GC.succs edges i) (reachable, rest)
                (h3 z hzr hznq0 w hw)
          exact ih (GC.pushSuccs (reachable, rest) (GC.succs edges i)) hmeas hq2 hc2 x hx y hy

theorem gc_rootsFold_supset (edges : List (ℕ × List ℕ)) (is : List ℕ) :
    ∀ st : Finset ℕ × List ℕ,
      st.1 ⊆ (is.foldl (fun st i => GC.pushSuccs st (GC.succs edges i)) st).1 := by
  induction is with
  | nil => intro st; exact Finset.Subset.refl _
  | cons i is ih =>
      intro st
      rw [List.foldl_cons]
      exact Finset.Subset.trans (gc_pushSuccs_subset (GC.succs edges i) st)
        (ih (GC.pushSuccs st (GC.succs edges i)))

theorem gc_rootsFold_sound (edges : List (ℕ × List ℕ)) (R : ℕ → Prop)
    (hstep : ∀ a b, R a → b ∈ GC.succs edges a → R b) (is : List ℕ)
    (his : ∀ i ∈ is, R i) :
    ∀ st : Finset ℕ × List ℕ,
      (∀ x ∈ st.1, R x) → (∀ x ∈ st.2, x ∈ st.1) →
      (∀ x ∈ (is.foldl (fun st i => GC.pushSuccs st (GC.succs edges i)) st).1, R x) ∧
      ∀ x ∈ (is.foldl (fun st i => GC.pushSuccs st (GC.succs edges i)) st).2,
        x ∈ (is.foldl (fun st i => GC.pushSuccs st (GC.succs edges i)) st).1 := by
  induction is with
  | nil => intro st h1 h2; exact ⟨h1, h2⟩
  | cons i is ih =>
      intro st h1 h2
      rw [List.foldl_cons]
      refine ih (fun z hz => his z (by simp [hz]))
        (GC.pushSuccs st (GC.succs edges i)) ?_ ?_
      · intro z hz
        rcases gc_pushSuccs_reach_cases (GC.succs edges i) st z hz with h | h
        · exact h1 z h
        · exact hstep i z (his i (by simp)) h
      · exact gc_pushSuccs_queue_in_reach (GC.succs edges i) st h2

theorem gc_rootsFold_closed (edges : List (ℕ × List ℕ)) (is : List ℕ) :
    ∀ st : Finset ℕ × List ℕ,
      (∀ x ∈ st.2, x ∈ st.1) →
      (∀ x ∈ st.1, x ∉ st.2 →
        x ∈ is ∨ ∀ y ∈ GC.succs edges x, y ∈ st.1) →
      (∀ x ∈ (is.foldl (fun st i => GC.pushSuccs st (GC.succs edges i)) st).2,
          x ∈ (is.foldl (fun st i => GC.pushSuccs st (GC.succs edges i)) st).1) ∧
      ∀ x ∈ (is.foldl (fun st i => GC.pushSuccs st (GC.succs edges i)) st).1,
        x ∉ (is.foldl (fun st i => GC.pushSuccs st (GC.succs edges i)) st).2 →
        ∀ y ∈ GC.succs edges x,
          y ∈ (is.foldl (fun st i => GC.pushSuccs st (GC.succs edges i)) st).1 := by
  induction is with
  | nil =>
      intro st h2 h3
      refine ⟨h2, ?_⟩
      intro x hx hnq y hy
      rcases h3 x hx hnq with h | h
      · cases h
      · exact h y hy
  | cons i is ih =>
      intro st h2 h3
      rw [List.foldl_cons]
      refine ih (GC.pushSuccs st (GC.succs edges i))
        (gc_pushSuccs_queue_in_reach (GC.succs edges i) st h2) ?_
      intro z hz hznq
      obtain ⟨hzr, hzq⟩ := gc_pushSuccs_new_in_queue (GC.succs edges i) st z hz hznq
      by_cases hzi : z = i
      · subst hzi
        exact Or.inr (fun w hw => gc_pushSuccs_mem_js (GC.succs edges z) st w hw)
      · rcases h3 z hzr hzq with h | h
        · rcases List.mem_cons.mp h with h | h
          · exact absurd h hzi
          · exact Or.inl h
        · exact Or.inr
            (fun w hw => gc_pushSuccs_subset (GC.succs edges i) st (h w hw))

theorem gc_build_roots (ops : List GC.Op) :
    ∀ d : GC.Dependencies, ∀ r : ℕ,
      (r ∈ (ops.foldl
          (fun d op =>
            match op with
            | .addEdge a b => d.addEdge a b
            | .addRoot r => d.addRoot r)
          d).roots ↔ r ∈ d.roots ∨ GC.Op.addRoot r ∈ ops) := by
  induction ops with
  | nil => intro d r; simp
  | cons op rest ih =>
      intro d r
      rw [List.foldl_cons]
      match op with
      | .addEdge a b =>
          rw [ih]
          unfold GC.Dependencies.addEdge
          simp
      | .addRoot r2 =>
          rw [ih]
          unfold GC.Dependencies.addRoot
          dsimp only
          by_cases hr : r2 ∈ d.roots
          · rw [if_pos hr]
            constructor
            · rintro (h | h)
              · exact Or.inl h
              · exact Or.inr (by simp [h])
            · rintro (h | h)
              · exact Or.inl h
              · rcases List.mem_cons.mp h with h | h
                · cases h; exact Or.inl hr
                · exact Or.inr h
          · rw [if_neg hr]
            constructor
            · rintro (h | h)
              · rcases List.mem_append.mp h with h | h
                · exact Or.inl h
                · rcases List.mem_singleton.mp h with rfl
                  exact Or.inr (by simp)
              · exact Or.inr (by simp [h])
            · rintro (h | h)
              · exact Or.inl (List.mem_append.mpr (Or.inl h))
              · rcases List.mem_cons.mp h with h | h
                · cases h
                  exact Or.inl (List.mem_append.mpr (Or.inr (by simp)))
                · exact Or.inr h

theorem gc_succs_cons (e : ℕ × List ℕ) (rest : List (ℕ × List ℕ)) (x : ℕ) :
    GC.succs (e :: rest) x = if e.1 = x then e.2 else GC.succs rest x := by
  by_cases he : e.1 = x
  · rw [if_pos he]
    unfold GC.succs
    rw [List.find?_cons, decide_eq_true he]
  · rw [if_neg he]
    unfold GC.succs
    rw [List.find?_cons, decide_eq_false he]

theorem gc_succs_edgesInsert (a c x b : ℕ) : ∀ edges : List (ℕ × List ℕ),
    (b ∈ GC.succs (GC.edgesInsert a c edges) x ↔
      (x = a ∧ b = c) ∨ b ∈ GC.succs edges x) := by
  intro edges
  induction edges with
  | nil =>
      rw [show GC.edgesInsert a c [] = [(a, [c])] from rfl, gc_succs_cons]
      by_cases hx : a = x
      · rw [if_pos hx]
        constructor
        · intro h
          exact Or.inl ⟨hx.symm, List.mem_singleton.mp h⟩
        · rintro (⟨-, h⟩ | h)
          · exact List.mem_singleton.mpr h
          · cases h
      · rw [if_neg hx]
        constructor
        · intro h; cases h
        · rintro (⟨hxa, -⟩ | h)
          · exact absurd hxa.symm hx
          · cases h
  | cons e rest ih =>
      unfold GC.edgesInsert
      by_cases he : e.1 = a
      · rw [if_pos he]
        rw [gc_succs_cons, gc_succs_cons]
        by_cases hx : e.1 = x
        · rw [if_pos hx, if_pos hx]
          have hxa : x = a := hx ▸ he
          constructor
          · intro h
            by_cases hc : c ∈ e.2
            · rw [if_pos hc] at h
              exact Or.inr h
            · rw [if_neg hc] at h
              rcases List.mem_append.mp h with h | h
              · exact Or.inr h
              · exact Or.inl ⟨hxa, List.mem_singleton.mp h⟩
          · rintro (⟨-, rfl⟩ | h)
            · by_cases hc : b ∈ e.2
              · rw [if_pos hc]; exact hc
              · rw [if_neg hc]
                exact List.mem_append.mpr (Or.inr (by simp))
            · by_cases hc : c ∈ e.2
              · rw [if_pos hc]; exact h
              · rw [if_neg hc]
                exact List.mem_append.mpr (Or.inl h)
        · rw [if_neg hx, if_neg hx]
          constructor
          · intro h; exact Or.inr h
          · rintro (⟨hxa, -⟩ | h)
            · exact absurd (he.trans hxa.symm) hx
            · exact h
      · rw [if_neg he]
        rw [gc_succs_cons, gc_succs_cons]
        by_cases hx : e.1 = x
        · rw [if_pos hx, if_pos hx]
          constructor
          · intro h; exact Or.inr h
          · rintro (⟨hxa, -⟩ | h)
            · exact absurd (hx.trans hxa) he
            · exact h
        · rw [if_neg hx, if_neg hx]
          exact ih

theorem gc_build_edges (ops : List GC.Op) :
    ∀ (d : GC.Dependencies) (a b : ℕ),
      (b ∈ GC.succs
          (ops.foldl
            (fun d op =>
              match op with
              | .addEdge a b => d.addEdge a b
              | .addRoot r => d.addRoot r)
            d).edges a ↔
        GC.Op.addEdge a b ∈ ops ∨ b ∈ GC.succs d.edges a) := by
  induction ops with
  | nil => intro d a b; simp
  | cons op rest ih =>
      intro d a b
      rw [List.foldl_cons]
      match op with
      | .addEdge a2 b2 =>
          rw [ih]
          unfold GC.Dependencies.addEdge
          dsimp only
          rw [gc_succs_edgesInsert]
          constructor
          · rintro (h | ⟨rfl, rfl⟩ | h)
            · exact Or.inl (by simp [h])
            · exact Or.inl (by simp)
            · exact Or.inr h
          · rintro (h | h)
            · rcases List.mem_cons.mp h with h | h
              · cases h
                exact Or.inr (Or.inl ⟨rfl, rfl⟩)
              · exact Or.inl h
            · exact Or.inr (Or.inr h)
      | .addRoot r2 =>
          rw [ih]
          unfold GC.Dependencies.addRoot
          dsimp only
          constructor
          · rintro (h | h)
            · exact Or.inl (by simp [h])
            · exact Or.inr h
          · rintro (h | h)
            · rcases List.mem_cons.mp h with h | h
              · cases h
              · exact Or.inl h
            · exact Or.inr h

/-- C2: for every `Dependencies` value built by any sequence of `add_edge`
and `add_root` calls, `get_reachable()` returns exactly the set of offsets
reachable from the roots through zero or more forward edges. -/
theorem c2_get_reachable_iff_reaches (ops : List GC.Op) (x : ℕ) :
    x ∈ (GC.build ops).getReachable ↔ GC.Reaches ops x := by
  have hroots : ∀ r, r ∈ (GC.build ops).roots ↔ GC.Op.addRoot r ∈ ops := by
    intro r
    have h := gc_build_roots ops GC.Dependencies.new r
    simpa [GC.build, GC.Dependencies.new] using h
  have hedges : ∀ a b,
      b ∈ GC.succs (GC.build ops).edges a ↔ GC.Op.addEdge a b ∈ ops := by
    intro a b
    have h := gc_build_edges ops GC.Dependencies.new a b
    simpa [GC.build, GC.Dependencies.new, GC.succs] using h
  have hstep : ∀ a b, GC.Reaches ops a →
      b ∈ GC.succs (GC.build ops).edges a → GC.Reaches ops b :=
    fun a b ha hb => GC.Reaches.step a b ha ((hedges a b).mp hb)
  unfold GC.Dependencies.getReachable
  dsimp only
  obtain ⟨hs1, hs2⟩ :=
    gc_rootsFold_sound (GC.build ops).edges (GC.Reaches ops) hstep
      (GC.build ops).roots
      (fun i hi => GC.Reaches.root i ((hroots i).mp hi))
      ((GC.build ops).roots.toFinset, [])
      (fun z hz => GC.Reaches.root z ((hroots z).mp (List.mem_toFinset.mp hz)))
      (fun z hz => by cases hz)
  obtain ⟨hq0, hc0⟩ :=
    gc_rootsFold_closed (GC.build ops).edges (GC.build ops).roots
      ((GC.build ops).roots.toFinset, [])
      (fun z hz => by cases hz)
      (fun z hz _ => Or.inl (List.mem_toFinset.mp hz))
  constructor
  · intro hx
    exact gc_drainLoop_sound (GC.build ops).edges (GC.Reaches ops) hstep _ _
      hs1 hs2 x hx
  · intro hr
    have hclosed :=
      gc_drainLoop_closed (GC.build ops).edges _ _ (le_refl _) hq0 hc0
    induction hr with
    | root r hrr =>
        refine gc_drainLoop_supset (GC.build ops).edges _ _ ?_
        refine gc_rootsFold_supset (GC.build ops).edges (GC.build ops).roots
          ((GC.build ops).roots.toFinset, []) ?_
        exact List.mem_toFinset.mpr ((hroots r).mpr hrr)
    | step a b ha hb ihh =>
        exact hclosed a ihh b ((hedges a b).mpr hb)
